import Mathlib

/-!
Verification of the co-authorship graph engine and the
feature-fusion / impact-scoring / predictive-modeling pipeline of the
academic-analysis repository.

The Python sources are embedded shallowly:
* pure string manipulation and graph bookkeeping are translated directly;
* pandas DataFrames become lists of records (a missing value, pandas NaN,
  becomes an Option);
* floating point numbers become rationals; the only place the square root
  of a float is taken (StandardScaler scale and RMSE) it is abstracted by
  a function parameter so that every definition stays executable;
* calls into numerical routines of networkx / sklearn whose results are
  iterative approximations (betweenness, closeness, pagerank, eigenvector
  power iteration, model fitting) are abstracted by function parameters;
  the deterministic control flow around them (the subject of the claims)
  is translated directly, including the documented null-graph rejection
  of networkx eigenvector centrality.
-/

namespace AcademicAnalysis

/-! ## Author-name normalization, citation_network.build_coauthorship_network

The source normalizes each author name by
`author.lower().strip()` followed by `normalized.replace('  ', ' ')`.
Python str.replace scans left to right, replacing non-overlapping
occurrences of two consecutive spaces with one space. -/

/-- Python whitespace test for strip (ASCII fragment). -/
def pySpace (c : Char) : Bool := c.isWhitespace

/-- Python str.strip: drop whitespace from both ends. -/
def pyStrip (cs : List Char) : List Char :=
  ((cs.dropWhile pySpace).reverse.dropWhile pySpace).reverse

/-- Python str.replace of a double space by a single space:
one left-to-right pass over non-overlapping occurrences. -/
def replaceDoubleSpace : List Char → List Char
  | ' ' :: ' ' :: rest => ' ' :: replaceDoubleSpace rest
  | c :: rest => c :: replaceDoubleSpace rest
  | [] => []

/-- The author-name normalization of citation_network.py lines 60-61:
lowercase, strip, then one replace pass of double spaces. -/
def pyNormalize (s : String) : String :=
  String.mk (replaceDoubleSpace (pyStrip (s.data.map Char.toLower)))

/-- Modelled from the spec: the normalization contract the spec adopts for
author identity (case-fold, strip, collapse every maximal internal run of
whitespace to a single space).  The source implements only a single
replace pass, so this is the comparison point for the refinement claim.
The boolean argument records whether the previous kept character was a
space. -/
def collapseRunsAux : Bool → List Char → List Char
  | _, [] => []
  | true, ' ' :: rest => collapseRunsAux true rest
  | false, ' ' :: rest => ' ' :: collapseRunsAux true rest
  | _, c :: rest => c :: collapseRunsAux false rest

/-- Modelled from the spec: full whitespace-run collapse plus case-fold. -/
def specNormalize (s : String) : String :=
  String.mk (collapseRunsAux false (pyStrip (s.data.map Char.toLower)))

/-! ## The co-authorship graph, citation_network.py lines 46-86

A networkx Graph: a node list (insertion order) and an edge list; each
edge carries its two endpoints and the edge data dict
(weight, publications).  Self-loops are representable, exactly as in
networkx. -/

structure EdgeData where
  weight : ℕ
  publications : List String
deriving DecidableEq

abbrev Edge := String × String × EdgeData

structure Graph where
  nodes : List String
  edges : List Edge
deriving DecidableEq

def emptyGraph : Graph := ⟨[], []⟩

/-- Does the stored edge join the unordered pair (a, b)? -/
def edgeMatches (a b : String) (e : Edge) : Bool :=
  (e.1 == a && e.2.1 == b) || (e.1 == b && e.2.1 == a)

/-- networkx Graph.has_edge. -/
def hasEdge (g : Graph) (a b : String) : Bool :=
  g.edges.any (edgeMatches a b)

/-- The data of the (first) stored edge joining a and b, if any. -/
def getEdge? (g : Graph) (a b : String) : Option EdgeData :=
  (g.edges.find? (edgeMatches a b)).map (fun e => e.2.2)

/-- Weight of the edge joining a and b, 0 when the edge is absent. -/
def edgeWeight (g : Graph) (a b : String) : ℕ :=
  ((getEdge? g a b).map (fun d => d.weight)).getD 0

/-- Shared-publication titles of the edge joining a and b, [] when absent. -/
def edgeTitles (g : Graph) (a b : String) : List String :=
  ((getEdge? g a b).map (fun d => d.publications)).getD []

/-- networkx: adding an edge registers any endpoint not yet present. -/
def addNode (g : Graph) (n : String) : Graph :=
  if n ∈ g.nodes then g else { g with nodes := g.nodes ++ [n] }

/-- Lines 73-76: increment the weight of the first stored edge joining
a and b and append the publication title. -/
def bumpEdge (t : String) (a b : String) : List Edge → List Edge
  | [] => []
  | e :: es =>
    if edgeMatches a b e then
      (e.1, e.2.1, ⟨e.2.2.weight + 1, e.2.2.publications ++ [t]⟩) :: es
    else e :: bumpEdge t a b es

/-- Lines 71-84: if the pair already has an edge, increment its weight and
append the title; otherwise create a fresh edge with weight 1 and the
title as its publication list (registering the endpoints as nodes). -/
def addOrIncEdge (g : Graph) (a b : String) (title : String) : Graph :=
  if hasEdge g a b then { g with edges := bumpEdge title a b g.edges }
  else
    let g' := addNode (addNode g a) b
    { g' with edges := g'.edges ++ [(a, b, ⟨1, [title]⟩)] }

/-! ## Publications -/

/-- A cell of the pandas authors column: either a Python str or some
non-string value (the source filters with isinstance(author, str)). -/
inductive PyVal where
  | str (s : String)
  | nonstr
deriving DecidableEq

def PyVal.isStr : PyVal → Bool
  | .str _ => true
  | .nonstr => false

structure Publication where
  authors : List PyVal
  title : String
deriving DecidableEq

/-- Lines 57-62: keep the string-valued entries, normalized. -/
def normalizedAuthors (authors : List PyVal) : List String :=
  authors.filterMap fun a =>
    match a with
    | .str s => some (pyNormalize s)
    | .nonstr => none

/-- The ordered pairs (i, j), i < j, visited by the nested loops of
lines 66-69. -/
def pairsOf {α : Type} : List α → List (α × α)
  | [] => []
  | x :: xs => (xs.map fun y => (x, y)) ++ pairsOf xs

/-- Lines 49-84: the effect of one publication row on the graph.  A row
with fewer than 2 raw author entries is skipped entirely. -/
def processPublication (g : Graph) (p : Publication) : Graph :=
  if p.authors.length < 2 then g
  else (pairsOf (normalizedAuthors p.authors)).foldl
    (fun h q => addOrIncEdge h q.1 q.2 p.title) g

/-- Lines 46-86: rebuild the graph from scratch from the publication rows. -/
def buildCoauthorshipNetwork (pubs : List Publication) : Graph :=
  pubs.foldl processPublication emptyGraph

/-- Is there a stored edge whose two endpoints coincide? -/
def hasSelfLoop (g : Graph) : Bool :=
  g.edges.any fun e => e.1 == e.2.1

/-- Do two ordered pairs denote the same unordered pair? -/
def samePair (p q : String × String) : Bool :=
  (p.1 == q.1 && p.2 == q.2) || (p.1 == q.2 && p.2 == q.1)

/-- The updated entry produced by bumpEdge keeps its endpoints. -/
def bumped (t : String) (e : Edge) : Edge :=
  (e.1, e.2.1, (⟨e.2.2.weight + 1, e.2.2.publications ++ [t]⟩ : EdgeData))

/-! ## Network metrics, citation_network.calculate_network_metrics (88-183) -/

/-- The two networkx exceptions relevant to the metrics computation. -/
inductive NxError where
  | pointlessConcept
  | powerIterationFailedConvergence
deriving DecidableEq

/-- networkx degree: each incident edge counts once, a self-loop twice. -/
def nodeDegree (g : Graph) (n : String) : ℕ :=
  (g.edges.map fun e =>
    (if e.1 == n then 1 else 0) + (if e.2.1 == n then 1 else 0)).sum

/-- networkx degree_centrality: degree scaled by 1/(n-1); a graph with at
most one node maps every node to 1. -/
def nxDegreeCentrality (g : Graph) : List (String × ℚ) :=
  if g.nodes.length ≤ 1 then g.nodes.map fun n => (n, 1)
  else g.nodes.map fun n => (n, (nodeDegree g n : ℚ) / ((g.nodes.length : ℚ) - 1))

/-- networkx eigenvector_centrality with max_iter=1000: it rejects the null
graph outright (NetworkXPointlessConcept); on a non-empty graph the power
iteration — an external numerical routine, abstracted as the parameter
ecCore — either converges or signals PowerIterationFailedConvergence. -/
def nxEigenvectorCentrality (ecCore : Graph → Except NxError (List (String × ℚ)))
    (g : Graph) : Except NxError (List (String × ℚ)) :=
  if g.nodes.isEmpty then .error .pointlessConcept else ecCore g

/-- Python dict.get(node, 0). -/
def dictGet (d : List (String × ℚ)) (n : String) : ℚ :=
  ((d.find? fun p => p.1 == n).map fun p => p.2).getD 0

/-- One row of the per-node metrics table (lines 122-130). -/
structure MetricsRow where
  author_name : String
  degree : ℕ
  degree_centrality : ℚ
  betweenness_centrality : ℚ
  closeness_centrality : ℚ
  eigenvector_centrality : ℚ
  pagerank : ℚ
deriving DecidableEq

/-- One row of the authors DataFrame handed to the analyzer: the
author-publication relation produced by data_processor, which carries the
author_normalized column (so the merge takes the branch of lines 140-161). -/
structure AuthorRec where
  author_name : String
  author_normalized : String
  publication_title : String
  citation_count : ℚ
  abstract : String
deriving DecidableEq

/-- pandas drop_duplicates(subset=[key], keep='first'), keyed part. -/
def dedupAux {α : Type} (key : α → String) : List String → List α → List α
  | _, [] => []
  | seen, x :: xs =>
    if key x ∈ seen then dedupAux key seen xs
    else x :: dedupAux key (key x :: seen) xs

/-- pandas drop_duplicates(subset=[key], keep='first'). -/
def dedupBy {α : Type} (key : α → String) (l : List α) : List α := dedupAux key [] l

/-- The graph used by calculate_network_metrics: line 103 rebuilds from the
publications when the current graph has no nodes. -/
def effectiveGraph (pubs : List Publication) (g0 : Graph) : Graph :=
  if g0.nodes.length = 0 then buildCoauthorshipNetwork pubs else g0

/-- Lines 103-183.  The centrality routines that are pure library numerics
(betweenness, closeness, pagerank: total functions that never raise) and
the eigenvector power-iteration core are abstracted as parameters; the
degree metrics, the null-graph check of eigenvector centrality, the row
construction, the left merge with the deduplicated authors table and the
final dedup are translated directly.  A convergence failure escapes as
.error, exactly like the uncaught Python exception. -/
def metricsTable (bcF ccF prF : Graph → List (String × ℚ))
    (authors : List AuthorRec) (g : Graph) (ev : List (String × ℚ)) :
    List (MetricsRow × Option AuthorRec) :=
  let dc := nxDegreeCentrality g
  let bc := bcF g
  let cc := ccF g
  let pr := prF g
  let rows := g.nodes.map fun n =>
    ({ author_name := n
       degree := nodeDegree g n
       degree_centrality := dictGet dc n
       betweenness_centrality := dictGet bc n
       closeness_centrality := dictGet cc n
       eigenvector_centrality := dictGet ev n
       pagerank := dictGet pr n } : MetricsRow)
  let authorsUnique := dedupBy (fun a => a.author_normalized) authors
  let merged := rows.map fun m =>
    (m, authorsUnique.find? fun a => a.author_normalized == m.author_name)
  dedupBy (fun r => r.1.author_name) merged

def calculateNetworkMetrics
    (ecCore : Graph → Except NxError (List (String × ℚ)))
    (bcF ccF prF : Graph → List (String × ℚ))
    (pubs : List Publication) (authors : List AuthorRec) (g0 : Graph) :
    Except NxError (List (MetricsRow × Option AuthorRec)) :=
  match nxEigenvectorCentrality ecCore (effectiveGraph pubs g0) with
  | .error e => .error e
  | .ok ev =>
    .ok (metricsTable bcF ccF prF authors (effectiveGraph pubs g0) ev)

/-- A power-iteration core that fails to converge on every graph, as
networkx PowerIterationFailedConvergence permits after 1000 iterations. -/
def ecNonConvergent : Graph → Except NxError (List (String × ℚ)) :=
  fun _ => .error .powerIterationFailedConvergence

/-- A power-iteration core that always converges (to the empty dict). -/
def ecConvergent : Graph → Except NxError (List (String × ℚ)) :=
  fun _ => .ok []

/-- A library centrality routine returning the empty dict. -/
def constEmptyDict : Graph → List (String × ℚ) := fun _ => []

/-! ## Feature fusion, ml_analyzer.create_features (lines 52-99)

The bibliometric author-stats table and the network-metrics table as
MLAnalyzer receives them.  A missing numeric cell (pandas NaN) is none. -/

/-- One row of the bibliometric author-stats table. -/
structure StatRow where
  author_name : String
  publication_count : Option ℚ
  total_citations : Option ℚ
  avg_citations_per_paper : Option ℚ
  h_index_approx : Option ℚ
deriving DecidableEq

/-- One row of the network-metrics table as consumed by the analyzer. -/
structure MetRow where
  author_name : String
  degree : Option ℚ
  degree_centrality : Option ℚ
  betweenness_centrality : Option ℚ
  closeness_centrality : Option ℚ
  eigenvector_centrality : Option ℚ
  pagerank : Option ℚ
deriving DecidableEq

/-- A merged row (after the inner join, before fillna). -/
structure MergedRow where
  author_name : String
  publication_count : Option ℚ
  total_citations : Option ℚ
  avg_citations_per_paper : Option ℚ
  h_index_approx : Option ℚ
  degree : Option ℚ
  degree_centrality : Option ℚ
  betweenness_centrality : Option ℚ
  closeness_centrality : Option ℚ
  eigenvector_centrality : Option ℚ
  pagerank : Option ℚ
deriving DecidableEq

/-- A fully materialized feature vector (after fillna(0)). -/
structure FeatRow where
  author_name : String
  publication_count : ℚ
  total_citations : ℚ
  avg_citations_per_paper : ℚ
  h_index_approx : ℚ
  degree : ℚ
  degree_centrality : ℚ
  betweenness_centrality : ℚ
  closeness_centrality : ℚ
  eigenvector_centrality : ℚ
  pagerank : ℚ
deriving DecidableEq

/-- Combine one stats row and one metrics row sharing an author_name. -/
def mkMerged (a : StatRow) (b : MetRow) : MergedRow :=
  { author_name := a.author_name
    publication_count := a.publication_count
    total_citations := a.total_citations
    avg_citations_per_paper := a.avg_citations_per_paper
    h_index_approx := a.h_index_approx
    degree := b.degree
    degree_centrality := b.degree_centrality
    betweenness_centrality := b.betweenness_centrality
    closeness_centrality := b.closeness_centrality
    eigenvector_centrality := b.eigenvector_centrality
    pagerank := b.pagerank }

/-- pd.merge(A, B, on='author_name', how='inner'): the left rows in order,
each paired with all its matching right rows in order. -/
def innerMerge (A : List StatRow) (B : List MetRow) : List MergedRow :=
  A.flatMap fun a =>
    (B.filter fun b => b.author_name == a.author_name).map (mkMerged a)

/-- Line 94: fillna(0) over the selected feature columns. -/
def fillZero (m : MergedRow) : FeatRow :=
  { author_name := m.author_name
    publication_count := m.publication_count.getD 0
    total_citations := m.total_citations.getD 0
    avg_citations_per_paper := m.avg_citations_per_paper.getD 0
    h_index_approx := m.h_index_approx.getD 0
    degree := m.degree.getD 0
    degree_centrality := m.degree_centrality.getD 0
    betweenness_centrality := m.betweenness_centrality.getD 0
    closeness_centrality := m.closeness_centrality.getD 0
    eigenvector_centrality := m.eigenvector_centrality.getD 0
    pagerank := m.pagerank.getD 0 }

/-- Lines 62-97: dedup both inputs on author_name (keep first), inner
merge on author_name, select the feature columns, fill missing values with
0, and dedup the result once more. -/
def createFeatures (A : List StatRow) (B : List MetRow) : List FeatRow :=
  dedupBy (fun r => r.author_name)
    ((innerMerge (dedupBy (fun r => r.author_name) A)
        (dedupBy (fun r => r.author_name) B)).map fillZero)

/-! ## Impact scoring, ml_analyzer.calculate_impact_score (lines 101-159) -/

/-- numpy column mean. -/
def pyMean (l : List ℚ) : ℚ := l.sum / l.length

/-- Population variance (ddof = 0), as StandardScaler computes it. -/
def pyVar (l : List ℚ) : ℚ := ((l.map fun x => (x - pyMean l) ^ 2).sum) / l.length

/-- Column j of the feature matrix. -/
def colVals (X : List (List ℚ)) (j : ℕ) : List ℚ := X.map fun r => r.getD j 0

/-- StandardScaler scale_ of column j: the square root of the variance,
with a zero variance replaced by 1 (sklearn _handle_zeros_in_scale).  The
square root of a float is abstracted as the parameter sqrtFn. -/
def colScale (sqrtFn : ℚ → ℚ) (X : List (List ℚ)) (j : ℕ) : ℚ :=
  if pyVar (colVals X j) = 0 then 1 else sqrtFn (pyVar (colVals X j))

/-- Standardize the entries of one row, the column index running from j. -/
def standardizeFrom (sqrtFn : ℚ → ℚ) (X : List (List ℚ)) : ℕ → List ℚ → List ℚ
  | _, [] => []
  | j, x :: xs =>
    (x - pyMean (colVals X j)) / colScale sqrtFn X j
      :: standardizeFrom sqrtFn X (j + 1) xs

/-- StandardScaler fit_transform (line 130): z-score every column. -/
def standardize (sqrtFn : ℚ → ℚ) (X : List (List ℚ)) : List (List ℚ) :=
  X.map (standardizeFrom sqrtFn X 0)

/-- The fixed weight table of lines 133-142. -/
def impactWeights : List (String × ℚ) :=
  [("total_citations", 0.25), ("h_index_approx", 0.20), ("publication_count", 0.10),
   ("pagerank", 0.15), ("betweenness_centrality", 0.10),
   ("eigenvector_centrality", 0.10), ("degree_centrality", 0.05),
   ("closeness_centrality", 0.05)]

/-- weights[col] when the column is in the table; a column not in the
table is skipped, contributing weight 0 (line 148). -/
def weightOf (c : String) : ℚ :=
  ((impactWeights.find? fun p => p.1 == c).map fun p => p.2).getD 0

/-- Lines 144-149: the raw weighted score of one standardized row. -/
def rawScore (cols : List String) (xr : List ℚ) : ℚ :=
  ((cols.zip xr).map fun p => weightOf p.1 * p.2).sum

/-- One row of the feature table as the scorer sees it: the author name
plus the numeric cells of the feature columns, in column order. -/
structure FRow where
  author_name : String
  vals : List ℚ
deriving DecidableEq

/-- The raw weighted scores of the whole population (lines 128-149). -/
def rawScores (sqrtFn : ℚ → ℚ) (cols : List String) (rows : List FRow) : List ℚ :=
  (standardize sqrtFn (rows.map fun r => r.vals)).map (rawScore cols)

/-- numpy max over a non-empty array ([] mapped to 0 for totality). -/
def listMax : List ℚ → ℚ
  | [] => 0
  | x :: xs => xs.foldl max x

/-- numpy min over a non-empty array ([] mapped to 0 for totality). -/
def listMin : List ℚ → ℚ
  | [] => 0
  | x :: xs => xs.foldl min x

/-- Lines 151-155: min-max rescale to [0, 100] when max > min, otherwise
every score becomes 0 (np.zeros). -/
def minMaxRescale (raw : List ℚ) : List ℚ :=
  if listMin raw < listMax raw then
    raw.map fun x => (x - listMin raw) / (listMax raw - listMin raw) * 100
  else raw.map fun _ => 0

/-- Descending insertion by score (pandas sort_values ascending=False;
only the ordering is specified, not stability). -/
def insertDesc (x : FRow × ℚ) : List (FRow × ℚ) → List (FRow × ℚ)
  | [] => [x]
  | y :: ys => if y.2 < x.2 then x :: y :: ys else y :: insertDesc x ys

/-- Insertion sort by score, descending. -/
def sortScoresDesc (l : List (FRow × ℚ)) : List (FRow × ℚ) := l.foldr insertDesc []

/-- Lines 122-159: standardize, weight, min-max rescale, attach the scores
and return the table sorted by impact_score descending. -/
def calculateImpactScore (sqrtFn : ℚ → ℚ) (cols : List String) (rows : List FRow) :
    List (FRow × ℚ) :=
  sortScoresDesc (rows.zip (minMaxRescale (rawScores sqrtFn cols rows)))

/-! ## Citation prediction, ml_analyzer.predict_citations (lines 161-320) -/

/-- Line 192: the default model list (the docstring at line 176 promises
['rf', 'lgbm', 'dt', 'svm'] instead). -/
def defaultModels : List String := ["rf", "lgbm", "dt"]

/-- The model names the training loop recognizes (lines 218-271). -/
def knownModels : List String := ["rf", "lgbm", "dt", "svm"]

/-- sklearn r2_score, including its convention for a constant target. -/
def r2Score (yTrue yPred : List ℚ) : ℚ :=
  if (yTrue.map fun y => (y - pyMean yTrue) ^ 2).sum = 0 then
    (if ((yTrue.zip yPred).map fun p => (p.1 - p.2) ^ 2).sum = 0 then 1 else 0)
  else
    1 - (((yTrue.zip yPred).map fun p => (p.1 - p.2) ^ 2).sum
      / (yTrue.map fun y => (y - pyMean yTrue) ^ 2).sum)

/-- sklearn mean_squared_error. -/
def meanSquaredError (yTrue yPred : List ℚ) : ℚ :=
  ((yTrue.zip yPred).map fun p => (p.1 - p.2) ^ 2).sum / yTrue.length

structure ModelMetrics where
  r2 : ℚ
  rmse : ℚ
deriving DecidableEq

/-- One iteration of the training loop (lines 216-289): an unknown name is
skipped; lgbm is skipped when the library is unavailable; the actual
sklearn/lightgbm fit-and-predict is external, abstracted as fitPredict,
with none modelling the exception caught at lines 287-289; a success
appends r2 and rmse = sqrt(mse) on the held-out values. -/
def runModelsStep (lgbmAvailable : Bool) (fitPredict : String → Option (List ℚ))
    (sqrtFn : ℚ → ℚ) (yTest : List ℚ)
    (acc : List (String × ModelMetrics)) (name : String) :
    List (String × ModelMetrics) :=
  if name ∈ knownModels then
    if name = "lgbm" ∧ lgbmAvailable = false then acc
    else
      match fitPredict name with
      | some yPred =>
        acc ++ [(name, ⟨r2Score yTest yPred, sqrtFn (meanSquaredError yTest yPred)⟩)]
      | none => acc
  else acc

/-- The training loop over the requested model names, in order. -/
def runModels (lgbmAvailable : Bool) (fitPredict : String → Option (List ℚ))
    (sqrtFn : ℚ → ℚ) (yTest : List ℚ) (models : List String) :
    List (String × ModelMetrics) :=
  models.foldl (runModelsStep lgbmAvailable fitPredict sqrtFn yTest) []

/-- Python max(iterable, key=...): the first element with the maximal key
(a later element replaces the current best only when strictly greater). -/
def pyMaxBy {α : Type} (key : α → ℚ) : List α → Option α
  | [] => none
  | x :: xs => some (xs.foldl (fun b y => if key b < key y then y else b) x)

structure PredictReport where
  results : List (String × ModelMetrics)
  best_model : Option String
deriving DecidableEq

/-- Lines 187-320 (the result-relevant part): resolve the default model
list when none is passed, run the loop, and pick
best_model = max(results, key=r2) when at least one model trained
(lines 291-293), else None (line 308). -/
def predictCitations (lgbmAvailable : Bool) (fitPredict : String → Option (List ℚ))
    (sqrtFn : ℚ → ℚ) (yTest : List ℚ) (modelsArg : Option (List String)) :
    PredictReport :=
  { results := runModels lgbmAvailable fitPredict sqrtFn yTest
      (modelsArg.getD defaultModels)
    best_model := (pyMaxBy (fun p => p.2.r2)
      (runModels lgbmAvailable fitPredict sqrtFn yTest
        (modelsArg.getD defaultModels))).map fun p => p.1 }

/-! ### Basic lemmas about edge lookup -/

lemma edgeMatches_iff {a b : String} {e : Edge} :
    edgeMatches a b e = true ↔ (e.1 = a ∧ e.2.1 = b) ∨ (e.1 = b ∧ e.2.1 = a) := by
  simp [edgeMatches]

lemma samePair_iff {p q : String × String} :
    samePair p q = true ↔ (p.1 = q.1 ∧ p.2 = q.2) ∨ (p.1 = q.2 ∧ p.2 = q.1) := by
  simp [samePair]

lemma samePair_comm {p q : String × String} : samePair p q = samePair q p := by
  have h : samePair p q = true ↔ samePair q p = true := by
    rw [samePair_iff, samePair_iff]
    constructor <;> rintro (⟨h1, h2⟩ | ⟨h1, h2⟩)
    · exact Or.inl ⟨h1.symm, h2.symm⟩
    · exact Or.inr ⟨h2.symm, h1.symm⟩
    · exact Or.inl ⟨h1.symm, h2.symm⟩
    · exact Or.inr ⟨h2.symm, h1.symm⟩
  cases hpq : samePair p q <;> cases hqp : samePair q p <;> simp_all

lemma edgeMatches_comm {a b : String} {e : Edge} :
    edgeMatches a b e = edgeMatches b a e := by
  have h : edgeMatches a b e = true ↔ edgeMatches b a e = true := by
    rw [edgeMatches_iff, edgeMatches_iff]; tauto
  cases h1 : edgeMatches a b e <;> cases h2 : edgeMatches b a e <;> simp_all

/-- An edge entry can only join one unordered pair. -/
lemma edgeMatches_unique {a b c d : String} {e : Edge}
    (h1 : edgeMatches a b e = true) (h2 : edgeMatches c d e = true) :
    samePair (a, b) (c, d) = true := by
  rw [edgeMatches_iff] at h1 h2
  rw [samePair_iff]
  rcases h1 with ⟨h1a, h1b⟩ | ⟨h1a, h1b⟩ <;> rcases h2 with ⟨h2a, h2b⟩ | ⟨h2a, h2b⟩ <;>
    simp_all

lemma getEdge?_comm {g : Graph} {a b : String} : getEdge? g a b = getEdge? g b a := by
  unfold getEdge?
  have h : edgeMatches a b = edgeMatches b a := funext fun e => edgeMatches_comm
  rw [h]

lemma edgeWeight_comm {g : Graph} {a b : String} : edgeWeight g a b = edgeWeight g b a := by
  unfold edgeWeight; rw [getEdge?_comm]

lemma edgeTitles_comm {g : Graph} {a b : String} : edgeTitles g a b = edgeTitles g b a := by
  unfold edgeTitles; rw [getEdge?_comm]

lemma edges_addNode {g : Graph} {n : String} : (addNode g n).edges = g.edges := by
  unfold addNode; split <;> rfl

/-! ### The effect of addOrIncEdge on edge lookup -/

lemma edgeMatches_bumped {a b t : String} {e : Edge} :
    edgeMatches a b (bumped t e) = edgeMatches a b e := by
  have h : edgeMatches a b (bumped t e) = true ↔ edgeMatches a b e = true := by
    rw [edgeMatches_iff, edgeMatches_iff]; simp [bumped]
  cases h1 : edgeMatches a b (bumped t e) <;> cases h2 : edgeMatches a b e <;> simp_all

lemma bumpEdge_cons_pos {t a b : String} {e : Edge} {es : List Edge}
    (h : edgeMatches a b e = true) :
    bumpEdge t a b (e :: es) = bumped t e :: es := by
  simp [bumpEdge, h, bumped]

lemma bumpEdge_cons_neg {t a b : String} {e : Edge} {es : List Edge}
    (h : edgeMatches a b e = false) :
    bumpEdge t a b (e :: es) = e :: bumpEdge t a b es := by
  simp [bumpEdge, h]

lemma find?_bumpEdge (t a b : String) (es : List Edge) :
    (bumpEdge t a b es).find? (edgeMatches a b) =
      (es.find? (edgeMatches a b)).map (bumped t) := by
  induction es with
  | nil => simp [bumpEdge]
  | cons e es ih =>
    cases h : edgeMatches a b e with
    | true =>
      rw [bumpEdge_cons_pos h,
        List.find?_cons_of_pos _ (by rw [edgeMatches_bumped]; exact h),
        List.find?_cons_of_pos _ h]
      rfl
    | false =>
      rw [bumpEdge_cons_neg h,
        List.find?_cons_of_neg _ (by simp [h]),
        List.find?_cons_of_neg _ (by simp [h]), ih]

lemma find?_bumpEdge_other {a b c d : String} (t : String) (es : List Edge)
    (h : samePair (a, b) (c, d) = false) :
    (bumpEdge t c d es).find? (edgeMatches a b) = es.find? (edgeMatches a b) := by
  induction es with
  | nil => simp [bumpEdge]
  | cons e es ih =>
    cases hm : edgeMatches c d e with
    | true =>
      have hab : edgeMatches a b e = false := by
        cases hx : edgeMatches a b e with
        | false => rfl
        | true => exact absurd (edgeMatches_unique hx hm) (by simp [h])
      rw [bumpEdge_cons_pos hm,
        List.find?_cons_of_neg _ (by rw [edgeMatches_bumped]; simp [hab]),
        List.find?_cons_of_neg _ (by simp [hab])]
    | false =>
      rw [bumpEdge_cons_neg hm]
      cases hab : edgeMatches a b e with
      | true => rw [List.find?_cons_of_pos _ hab, List.find?_cons_of_pos _ hab]
      | false =>
        rw [List.find?_cons_of_neg _ (by simp [hab]),
          List.find?_cons_of_neg _ (by simp [hab]), ih]

lemma getEdge?_addOrIncEdge_same (g : Graph) (a b t : String) :
    getEdge? (addOrIncEdge g a b t) a b =
      some ⟨edgeWeight g a b + 1, edgeTitles g a b ++ [t]⟩ := by
  unfold addOrIncEdge
  by_cases h : hasEdge g a b = true
  · rw [if_pos h]
    unfold getEdge? at *
    simp only [find?_bumpEdge]
    rcases he : g.edges.find? (edgeMatches a b) with _ | e
    · rw [hasEdge, List.any_eq_true] at h
      obtain ⟨x, hx, hpx⟩ := h
      rw [List.find?_eq_none] at he
      exact absurd hpx (he x hx)
    · simp [edgeWeight, edgeTitles, getEdge?, he, bumped]
  · rw [if_neg h]
    have hnone : g.edges.find? (edgeMatches a b) = none := by
      rw [List.find?_eq_none]
      intro x hx hpx
      exact h (by rw [hasEdge, List.any_eq_true]; exact ⟨x, hx, hpx⟩)
    have hmatch : edgeMatches a b (a, b, (⟨1, [t]⟩ : EdgeData)) = true := by
      rw [edgeMatches_iff]; left; exact ⟨rfl, rfl⟩
    simp [getEdge?, edges_addNode, List.find?_append, hnone, hmatch,
      edgeWeight, edgeTitles]

lemma getEdge?_addOrIncEdge_other {a b c d : String} (g : Graph) (t : String)
    (h : samePair (a, b) (c, d) = false) :
    getEdge? (addOrIncEdge g c d t) a b = getEdge? g a b := by
  unfold addOrIncEdge
  by_cases hc : hasEdge g c d = true
  · rw [if_pos hc]
    unfold getEdge?
    rw [find?_bumpEdge_other t g.edges h]
  · rw [if_neg hc]
    have hnm : edgeMatches a b (c, d, (⟨1, [t]⟩ : EdgeData)) = false := by
      cases hx : edgeMatches a b (c, d, (⟨1, [t]⟩ : EdgeData)) with
      | false => rfl
      | true =>
        rw [edgeMatches_iff] at hx
        have hsp : samePair (a, b) (c, d) = true := by
          rw [samePair_iff]
          rcases hx with ⟨h1, h2⟩ | ⟨h1, h2⟩
          · exact Or.inl ⟨h1.symm, h2.symm⟩
          · exact Or.inr ⟨h2.symm, h1.symm⟩
        rw [hsp] at h; exact absurd h (by simp)
    simp only [getEdge?, edges_addNode, List.find?_append]
    rcases he : g.edges.find? (edgeMatches a b) with _ | e <;> simp [he, hnm]

lemma edgeWeight_addOrIncEdge_same (g : Graph) (a b t : String) :
    edgeWeight (addOrIncEdge g a b t) a b = edgeWeight g a b + 1 := by
  simp [edgeWeight, getEdge?_addOrIncEdge_same]

lemma edgeTitles_addOrIncEdge_same (g : Graph) (a b t : String) :
    edgeTitles (addOrIncEdge g a b t) a b = edgeTitles g a b ++ [t] := by
  simp [edgeTitles, getEdge?_addOrIncEdge_same]

lemma edgeWeight_step_same {q : String × String} {a b : String} (g : Graph) (t : String)
    (h : samePair q (a, b) = true) :
    edgeWeight (addOrIncEdge g q.1 q.2 t) a b = edgeWeight g a b + 1
    ∧ edgeTitles (addOrIncEdge g q.1 q.2 t) a b = edgeTitles g a b ++ [t] := by
  rw [samePair_iff] at h
  rcases h with ⟨h1, h2⟩ | ⟨h1, h2⟩
  · simp only at h1 h2
    rw [h1, h2]
    exact ⟨edgeWeight_addOrIncEdge_same g a b t, edgeTitles_addOrIncEdge_same g a b t⟩
  · simp only at h1 h2
    rw [h1, h2]
    constructor
    · calc edgeWeight (addOrIncEdge g b a t) a b
          = edgeWeight (addOrIncEdge g b a t) b a := edgeWeight_comm
        _ = edgeWeight g b a + 1 := edgeWeight_addOrIncEdge_same g b a t
        _ = edgeWeight g a b + 1 := by rw [edgeWeight_comm]
    · calc edgeTitles (addOrIncEdge g b a t) a b
          = edgeTitles (addOrIncEdge g b a t) b a := edgeTitles_comm
        _ = edgeTitles g b a ++ [t] := edgeTitles_addOrIncEdge_same g b a t
        _ = edgeTitles g a b ++ [t] := by rw [edgeTitles_comm]

lemma edgeWeight_step_other {q : String × String} {a b : String} (g : Graph) (t : String)
    (h : samePair q (a, b) = false) :
    edgeWeight (addOrIncEdge g q.1 q.2 t) a b = edgeWeight g a b
    ∧ edgeTitles (addOrIncEdge g q.1 q.2 t) a b = edgeTitles g a b := by
  have h' : samePair (a, b) (q.1, q.2) = false := by
    rw [samePair_comm]; exact h
  constructor
  · simp [edgeWeight, getEdge?_addOrIncEdge_other g t h']
  · simp [edgeTitles, getEdge?_addOrIncEdge_other g t h']

/-- The cumulative effect of the pair loop on one unordered pair: the
weight grows by the number of visited pairs equal to it, and the title is
appended that many times. -/
lemma foldl_addOrIncEdge (t : String) (ps : List (String × String)) (g : Graph)
    (a b : String) :
    edgeWeight (ps.foldl (fun h q => addOrIncEdge h q.1 q.2 t) g) a b =
      edgeWeight g a b + ps.countP (fun q => samePair q (a, b))
    ∧ edgeTitles (ps.foldl (fun h q => addOrIncEdge h q.1 q.2 t) g) a b =
      edgeTitles g a b ++ List.replicate (ps.countP (fun q => samePair q (a, b))) t := by
  induction ps generalizing g with
  | nil => simp
  | cons q ps ih =>
    rw [List.foldl_cons]
    cases h : samePair q (a, b) with
    | true =>
      obtain ⟨hw, ht⟩ := edgeWeight_step_same g t h
      obtain ⟨ihw, iht⟩ := ih (addOrIncEdge g q.1 q.2 t)
      refine ⟨?_, ?_⟩
      · rw [ihw, hw, List.countP_cons]
        simp only [h, if_true]
        omega
      · rw [iht, ht, List.countP_cons]
        simp [h, List.replicate_succ, List.append_assoc]
    | false =>
      obtain ⟨hw, ht⟩ := edgeWeight_step_other g t h
      obtain ⟨ihw, iht⟩ := ih (addOrIncEdge g q.1 q.2 t)
      refine ⟨?_, ?_⟩
      · rw [ihw, hw, List.countP_cons]
        simp [h]
      · rw [iht, ht, List.countP_cons]
        simp [h]

/-! ### Counting pairs in the nested loop -/

lemma length_pairsOf {α : Type} : ∀ l : List α, (pairsOf l).length = l.length.choose 2
  | [] => by simp [pairsOf]
  | x :: xs => by
    rw [pairsOf, List.length_append, List.length_map, length_pairsOf xs,
      List.length_cons, Nat.choose_succ_succ, Nat.choose_one_right]

lemma mem_pairsOf {α : Type} {q : α × α} :
    ∀ {l : List α}, q ∈ pairsOf l → q.1 ∈ l ∧ q.2 ∈ l := by
  intro l
  induction l with
  | nil => simp [pairsOf]
  | cons x xs ih =>
    intro hq
    rw [pairsOf, List.mem_append] at hq
    rcases hq with hq | hq
    · obtain ⟨y, hy, rfl⟩ := List.mem_map.1 hq
      exact ⟨List.mem_cons_self _ _, List.mem_cons_of_mem _ hy⟩
    · obtain ⟨h1, h2⟩ := ih hq
      exact ⟨List.mem_cons_of_mem _ h1, List.mem_cons_of_mem _ h2⟩

lemma pairsOf_ne {α : Type} [DecidableEq α] :
    ∀ {l : List α}, l.Nodup → ∀ q ∈ pairsOf l, q.1 ≠ q.2 := by
  intro l
  induction l with
  | nil => simp [pairsOf]
  | cons x xs ih =>
    intro hnd q hq
    rw [List.nodup_cons] at hnd
    rw [pairsOf, List.mem_append] at hq
    rcases hq with hq | hq
    · obtain ⟨y, hy, rfl⟩ := List.mem_map.1 hq
      intro hxy
      exact hnd.1 (by rw [show x = y from hxy]; exact hy)
    · exact ih hnd.2 q hq

lemma countP_pairsOf_zero {l : List String} {a b : String} (h : a ∉ l ∨ b ∉ l) :
    (pairsOf l).countP (fun q => samePair q (a, b)) = 0 := by
  rw [List.countP_eq_zero]
  intro q hq hsp
  obtain ⟨h1, h2⟩ := mem_pairsOf hq
  rw [samePair_iff] at hsp
  rcases hsp with ⟨e1, e2⟩ | ⟨e1, e2⟩ <;> rcases h with h | h <;> simp_all

lemma countP_single {xs : List String} {b : String} {p : String → Bool}
    (hiff : ∀ y, p y = true ↔ y = b) (hnd : xs.Nodup) (hb : b ∈ xs) :
    xs.countP p = 1 := by
  induction xs with
  | nil => simp at hb
  | cons x xs ih =>
    rw [List.nodup_cons] at hnd
    rcases List.mem_cons.1 hb with hbx | hbx
    · have hzero : xs.countP p = 0 := by
        rw [List.countP_eq_zero]
        intro y hy hpy
        rw [(hiff y).1 hpy, hbx] at hy
        exact hnd.1 hy
      rw [List.countP_cons_of_pos _ _ ((hiff x).2 hbx.symm), hzero]
    · have hpx : p x = false := by
        cases hx : p x with
        | false => rfl
        | true =>
          rw [(hiff x).1 hx] at hnd
          exact absurd hbx hnd.1
      rw [List.countP_cons_of_neg _ _ (by simp [hpx])]
      exact ih hnd.2 hbx

lemma countP_pairsOf_one {l : List String} {a b : String}
    (hnd : l.Nodup) (ha : a ∈ l) (hb : b ∈ l) (hab : a ≠ b) :
    (pairsOf l).countP (fun q => samePair q (a, b)) = 1 := by
  induction l with
  | nil => simp at ha
  | cons x xs ih =>
    rw [List.nodup_cons] at hnd
    rw [pairsOf, List.countP_append, List.countP_map]
    by_cases hxa : x = a
    · have hbxs : b ∈ xs := by
        rcases List.mem_cons.1 hb with h | h
        · exact absurd (h.trans hxa).symm hab
        · exact h
      have hone : xs.countP ((fun q => samePair q (a, b)) ∘ fun y => (x, y)) = 1 := by
        refine countP_single (fun y => ?_) hnd.2 hbxs
        simp only [Function.comp]
        rw [samePair_iff]
        constructor
        · rintro (⟨_, h2⟩ | ⟨h1, _⟩)
          · exact h2
          · exact absurd (hxa.symm.trans h1) hab
        · intro h
          exact Or.inl ⟨hxa, h⟩
      have hna : a ∉ xs := by
        intro hmem
        exact hnd.1 (by rw [hxa]; exact hmem)
      rw [hone, countP_pairsOf_zero (Or.inl hna)]
    · by_cases hxb : x = b
      · have haxs : a ∈ xs := by
          rcases List.mem_cons.1 ha with h | h
          · exact absurd (h.trans hxb).symm (fun hba => hab hba.symm)
          · exact h
        have hone : xs.countP ((fun q => samePair q (a, b)) ∘ fun y => (x, y)) = 1 := by
          refine countP_single (fun y => ?_) hnd.2 haxs
          simp only [Function.comp]
          rw [samePair_iff]
          constructor
          · rintro (⟨h1, _⟩ | ⟨_, h2⟩)
            · exact absurd (hxb.symm.trans h1).symm hab
            · exact h2
          · intro h
            exact Or.inr ⟨hxb, h⟩
        have hnb : b ∉ xs := by
          intro hmem
          exact hnd.1 (by rw [hxb]; exact hmem)
        rw [hone, countP_pairsOf_zero (Or.inr hnb)]
      · have hzero : xs.countP ((fun q => samePair q (a, b)) ∘ fun y => (x, y)) = 0 := by
          rw [List.countP_eq_zero]
          intro y _ hpy
          simp only [Function.comp] at hpy
          rw [samePair_iff] at hpy
          rcases hpy with ⟨h1, _⟩ | ⟨h1, _⟩
          · exact hxa h1
          · exact hxb h1
        have haxs : a ∈ xs := by
          rcases List.mem_cons.1 ha with h | h
          · exact absurd h.symm hxa
          · exact h
        have hbxs : b ∈ xs := by
          rcases List.mem_cons.1 hb with h | h
          · exact absurd h.symm hxb
          · exact h
        rw [hzero, ih hnd.2 haxs hbxs]

lemma length_normalizedAuthors {l : List PyVal} (h : ∀ a ∈ l, a.isStr = true) :
    (normalizedAuthors l).length = l.length := by
  induction l with
  | nil => rfl
  | cons a l ih =>
    cases a with
    | str s =>
      have : normalizedAuthors (PyVal.str s :: l) = pyNormalize s :: normalizedAuthors l := by
        simp [normalizedAuthors]
      rw [this, List.length_cons, List.length_cons,
        ih (fun x hx => h x (List.mem_cons_of_mem _ hx))]
    | nonstr => exact absurd (h _ (List.mem_cons_self _ _)) (by simp [PyVal.isStr])

/-! ### The graph invariants needed for C6 -/

lemma mem_bumpEdge {t a b : String} {es : List Edge} {e' : Edge}
    (h : e' ∈ bumpEdge t a b es) : e' ∈ es ∨ ∃ e ∈ es, e' = bumped t e := by
  induction es with
  | nil => simp [bumpEdge] at h
  | cons e es ih =>
    cases hm : edgeMatches a b e with
    | true =>
      rw [bumpEdge_cons_pos hm] at h
      rcases List.mem_cons.1 h with h | h
      · exact Or.inr ⟨e, List.mem_cons_self _ _, h⟩
      · exact Or.inl (List.mem_cons_of_mem _ h)
    | false =>
      rw [bumpEdge_cons_neg hm] at h
      rcases List.mem_cons.1 h with h | h
      · exact Or.inl (by rw [h]; exact List.mem_cons_self _ _)
      · rcases ih h with h' | ⟨e₀, he₀, hb⟩
        · exact Or.inl (List.mem_cons_of_mem _ h')
        · exact Or.inr ⟨e₀, List.mem_cons_of_mem _ he₀, hb⟩

lemma hasSelfLoop_addOrIncEdge {g : Graph} {a b t : String} (hab : a ≠ b)
    (h : hasSelfLoop g = false) : hasSelfLoop (addOrIncEdge g a b t) = false := by
  rw [hasSelfLoop, List.any_eq_false] at h ⊢
  intro e' he'
  unfold addOrIncEdge at he'
  by_cases hc : hasEdge g a b = true
  · rw [if_pos hc] at he'
    rcases mem_bumpEdge he' with hm | ⟨e, he, rfl⟩
    · exact h e' hm
    · simpa [bumped] using h e he
  · rw [if_neg hc] at he'
    simp only [edges_addNode, List.mem_append] at he'
    rcases he' with hm | hm
    · exact h e' hm
    · have : e' = (a, b, (⟨1, [t]⟩ : EdgeData)) := by simpa using hm
      rw [this]
      simpa using hab

lemma weight_pos_addOrIncEdge {g : Graph} {a b t : String}
    (h : ∀ e ∈ g.edges, 1 ≤ e.2.2.weight) :
    ∀ e ∈ (addOrIncEdge g a b t).edges, 1 ≤ e.2.2.weight := by
  intro e' he'
  unfold addOrIncEdge at he'
  by_cases hc : hasEdge g a b = true
  · rw [if_pos hc] at he'
    rcases mem_bumpEdge he' with hm | ⟨e, _, rfl⟩
    · exact h e' hm
    · simp [bumped]
  · rw [if_neg hc] at he'
    simp only [edges_addNode, List.mem_append] at he'
    rcases he' with hm | hm
    · exact h e' hm
    · have : e' = (a, b, (⟨1, [t]⟩ : EdgeData)) := by simpa using hm
      rw [this]

lemma graph_inv_foldl (t : String) (ps : List (String × String)) (g : Graph)
    (hps : ∀ q ∈ ps, q.1 ≠ q.2)
    (h1 : hasSelfLoop g = false) (h2 : ∀ e ∈ g.edges, 1 ≤ e.2.2.weight) :
    hasSelfLoop (ps.foldl (fun h q => addOrIncEdge h q.1 q.2 t) g) = false
    ∧ ∀ e ∈ (ps.foldl (fun h q => addOrIncEdge h q.1 q.2 t) g).edges,
        1 ≤ e.2.2.weight := by
  induction ps generalizing g with
  | nil => exact ⟨h1, h2⟩
  | cons q ps ih =>
    rw [List.foldl_cons]
    exact ih (addOrIncEdge g q.1 q.2 t)
      (fun r hr => hps r (List.mem_cons_of_mem _ hr))
      (hasSelfLoop_addOrIncEdge (hps q (List.mem_cons_self _ _)) h1)
      (weight_pos_addOrIncEdge h2)

lemma graph_inv_processPublication (g : Graph) (p : Publication)
    (hnd : (normalizedAuthors p.authors).Nodup)
    (h1 : hasSelfLoop g = false) (h2 : ∀ e ∈ g.edges, 1 ≤ e.2.2.weight) :
    hasSelfLoop (processPublication g p) = false
    ∧ ∀ e ∈ (processPublication g p).edges, 1 ≤ e.2.2.weight := by
  unfold processPublication
  by_cases hk : p.authors.length < 2
  · rw [if_pos hk]; exact ⟨h1, h2⟩
  · rw [if_neg hk]
    exact graph_inv_foldl p.title _ g (pairsOf_ne hnd) h1 h2

/-! ## Claim theorems about the graph builder -/

/-- C1: a publication whose author list has k >= 2 entries (all of them
strings, with pairwise-distinct normalized names) visits exactly
C(k, 2) = k.choose 2 unordered pairs, and for each such pair either
creates the edge with weight 1 (weight grows from 0 to 1) or increments
the existing weight by 1, appending the title in both cases; edges outside
those pairs are untouched; a publication with fewer than 2 author entries
leaves the graph unchanged, contributing no nodes and no edges. -/
theorem c1_publication_edge_contribution (g : Graph) (p : Publication) :
    (p.authors.length < 2 → processPublication g p = g)
    ∧ ((∀ a ∈ p.authors, a.isStr = true) → 2 ≤ p.authors.length →
        (normalizedAuthors p.authors).Nodup →
        (normalizedAuthors p.authors).length = p.authors.length
        ∧ (pairsOf (normalizedAuthors p.authors)).length = p.authors.length.choose 2
        ∧ (∀ a b, a ∈ normalizedAuthors p.authors → b ∈ normalizedAuthors p.authors →
            a ≠ b →
            edgeWeight (processPublication g p) a b = edgeWeight g a b + 1
            ∧ edgeTitles (processPublication g p) a b = edgeTitles g a b ++ [p.title])
        ∧ (∀ a b, a ∉ normalizedAuthors p.authors ∨ b ∉ normalizedAuthors p.authors →
            edgeWeight (processPublication g p) a b = edgeWeight g a b
            ∧ edgeTitles (processPublication g p) a b = edgeTitles g a b)) := by
  constructor
  · intro h
    simp [processPublication, h]
  · intro hstr hk hnd
    have hproc : processPublication g p =
        (pairsOf (normalizedAuthors p.authors)).foldl
          (fun h q => addOrIncEdge h q.1 q.2 p.title) g := by
      rw [processPublication, if_neg (by omega)]
    refine ⟨length_normalizedAuthors hstr, ?_, ?_, ?_⟩
    · rw [length_pairsOf, length_normalizedAuthors hstr]
    · intro a b ha hb hab
      obtain ⟨hw, ht⟩ := foldl_addOrIncEdge p.title
        (pairsOf (normalizedAuthors p.authors)) g a b
      rw [hproc, hw, ht, countP_pairsOf_one hnd ha hb hab]
      exact ⟨rfl, rfl⟩
    · intro a b hnab
      obtain ⟨hw, ht⟩ := foldl_addOrIncEdge p.title
        (pairsOf (normalizedAuthors p.authors)) g a b
      rw [hproc, hw, ht, countP_pairsOf_zero hnab]
      simp

/-- Witness for C1: a concrete three-author publication applied to the
empty graph satisfies the hypotheses, and the theorem's conclusion holds
for it. -/
theorem c1_publication_edge_contribution_witness :
    ((∀ a ∈ (⟨[.str "Alice Smith", .str "Bob Jones", .str "Carol Diaz"], "paper one"⟩
        : Publication).authors, a.isStr = true)
      ∧ 2 ≤ (⟨[.str "Alice Smith", .str "Bob Jones", .str "Carol Diaz"], "paper one"⟩
        : Publication).authors.length
      ∧ (normalizedAuthors (⟨[.str "Alice Smith", .str "Bob Jones", .str "Carol Diaz"],
          "paper one"⟩ : Publication).authors).Nodup)
    ∧ ((normalizedAuthors (⟨[.str "Alice Smith", .str "Bob Jones", .str "Carol Diaz"],
          "paper one"⟩ : Publication).authors).length
        = (⟨[.str "Alice Smith", .str "Bob Jones", .str "Carol Diaz"], "paper one"⟩
          : Publication).authors.length
      ∧ (pairsOf (normalizedAuthors (⟨[.str "Alice Smith", .str "Bob Jones",
          .str "Carol Diaz"], "paper one"⟩ : Publication).authors)).length
        = (⟨[.str "Alice Smith", .str "Bob Jones", .str "Carol Diaz"], "paper one"⟩
          : Publication).authors.length.choose 2
      ∧ (∀ a b, a ∈ normalizedAuthors (⟨[.str "Alice Smith", .str "Bob Jones",
            .str "Carol Diaz"], "paper one"⟩ : Publication).authors →
          b ∈ normalizedAuthors (⟨[.str "Alice Smith", .str "Bob Jones",
            .str "Carol Diaz"], "paper one"⟩ : Publication).authors → a ≠ b →
          edgeWeight (processPublication emptyGraph
              (⟨[.str "Alice Smith", .str "Bob Jones", .str "Carol Diaz"], "paper one"⟩
                : Publication)) a b
            = edgeWeight emptyGraph a b + 1
          ∧ edgeTitles (processPublication emptyGraph
              (⟨[.str "Alice Smith", .str "Bob Jones", .str "Carol Diaz"], "paper one"⟩
                : Publication)) a b
            = edgeTitles emptyGraph a b ++ ["paper one"])
      ∧ (∀ a b, a ∉ normalizedAuthors (⟨[.str "Alice Smith", .str "Bob Jones",
            .str "Carol Diaz"], "paper one"⟩ : Publication).authors
          ∨ b ∉ normalizedAuthors (⟨[.str "Alice Smith", .str "Bob Jones",
            .str "Carol Diaz"], "paper one"⟩ : Publication).authors →
          edgeWeight (processPublication emptyGraph
              (⟨[.str "Alice Smith", .str "Bob Jones", .str "Carol Diaz"], "paper one"⟩
                : Publication)) a b
            = edgeWeight emptyGraph a b
          ∧ edgeTitles (processPublication emptyGraph
              (⟨[.str "Alice Smith", .str "Bob Jones", .str "Carol Diaz"], "paper one"⟩
                : Publication)) a b
            = edgeTitles emptyGraph a b)) :=
  ⟨⟨by decide, by decide, by decide⟩,
    (c1_publication_edge_contribution emptyGraph
      ⟨[.str "Alice Smith", .str "Bob Jones", .str "Carol Diaz"], "paper one"⟩).2
      (by decide) (by decide) (by decide)⟩

/-- C5: the claim states that normalization collapses every maximal run of
internal whitespace to a single space, so "a   b" (three spaces) and "a b"
should map to the same node.  The source's single replace pass maps
"a   b" to "a  b" (two spaces survive), a different node than
pyNormalize "a b" = "a b"; the spec-modelled full collapse gives "a b".
This evaluates the code at the failing input. -/
theorem c5_whitespace_collapse_diverges :
    pyNormalize "a   b" = "a  b"
    ∧ specNormalize "a   b" = "a b"
    ∧ pyNormalize "a b" = "a b"
    ∧ pyNormalize "a   b" ≠ pyNormalize "a b" :=
  ⟨by decide, by decide, by decide, by decide⟩

/-- C6 counterexample: the claim says the built graph never contains a
self-loop, even when a publication's author list contains the same
normalized name twice.  The publication with authors "John Smith" and
"john  smith" (both normalizing to "john smith") makes the code call
add_edge with the two equal names, creating a self-loop. -/
theorem c6_self_loop_counterexample :
    hasSelfLoop (buildCoauthorshipNetwork
      [⟨[.str "John Smith", .str "john  smith"], "dup paper"⟩]) = true := by
  decide

/-- One publication never lowers an edge weight below 1, with no
hypothesis on the author list: a bump gives weight + 1, a fresh edge gets
weight 1. -/
lemma weight_pos_processPublication (g : Graph) (p : Publication)
    (h2 : ∀ e ∈ g.edges, 1 ≤ e.2.2.weight) :
    ∀ e ∈ (processPublication g p).edges, 1 ≤ e.2.2.weight := by
  unfold processPublication
  by_cases hk : p.authors.length < 2
  · rw [if_pos hk]; exact h2
  · rw [if_neg hk]
    have hfold : ∀ (ps : List (String × String)) (g : Graph),
        (∀ e ∈ g.edges, 1 ≤ e.2.2.weight) →
        ∀ e ∈ (ps.foldl (fun h q => addOrIncEdge h q.1 q.2 p.title) g).edges,
          1 ≤ e.2.2.weight := by
      intro ps
      induction ps with
      | nil => intro g h2 e he; exact h2 e he
      | cons q ps ih =>
        intro g h2
        rw [List.foldl_cons]
        exact ih _ (weight_pos_addOrIncEdge h2)
    exact hfold _ g h2

/-- C6 amended: every stored edge of the built graph has weight >= 1,
unconditionally; and when every publication's normalized author list is
free of duplicates, the graph has no self-loops (a publication listing the
same normalized name twice creates one, per the counterexample). -/
theorem c6_no_self_loops_nodup (pubs : List Publication) :
    ((∀ p ∈ pubs, (normalizedAuthors p.authors).Nodup) →
      hasSelfLoop (buildCoauthorshipNetwork pubs) = false)
    ∧ ∀ e ∈ (buildCoauthorshipNetwork pubs).edges, 1 ≤ e.2.2.weight := by
  constructor
  · intro h
    rw [buildCoauthorshipNetwork]
    have hstep : ∀ (l : List Publication) (g : Graph),
        (∀ p ∈ l, (normalizedAuthors p.authors).Nodup) →
        hasSelfLoop g = false → (∀ e ∈ g.edges, 1 ≤ e.2.2.weight) →
        hasSelfLoop (l.foldl processPublication g) = false
        ∧ ∀ e ∈ (l.foldl processPublication g).edges, 1 ≤ e.2.2.weight := by
      intro l
      induction l with
      | nil => intro g _ h1 h2; exact ⟨h1, h2⟩
      | cons p l ih =>
        intro g hl h1 h2
        rw [List.foldl_cons]
        obtain ⟨h1', h2'⟩ := graph_inv_processPublication g p
          (hl p (List.mem_cons_self _ _)) h1 h2
        exact ih _ (fun r hr => hl r (List.mem_cons_of_mem _ hr)) h1' h2'
    exact (hstep pubs emptyGraph h (by decide)
      (by intro e he; simp [emptyGraph] at he)).1
  · rw [buildCoauthorshipNetwork]
    have hw : ∀ (l : List Publication) (g : Graph),
        (∀ e ∈ g.edges, 1 ≤ e.2.2.weight) →
        ∀ e ∈ (l.foldl processPublication g).edges, 1 ≤ e.2.2.weight := by
      intro l
      induction l with
      | nil => intro g h2; exact h2
      | cons p l ih =>
        intro g h2
        rw [List.foldl_cons]
        exact ih _ (weight_pos_processPublication g p h2)
    exact hw pubs emptyGraph (by intro e he; simp [emptyGraph] at he)

/-- Witness for C6 (amended): a concrete duplicate-free publication list
for the conditional no-self-loop half; the weight half is unconditional. -/
theorem c6_no_self_loops_nodup_witness :
    (∀ p ∈ [(⟨[.str "Ann Bell", .str "Cy Dole"], "w paper"⟩ : Publication)],
      (normalizedAuthors p.authors).Nodup)
    ∧ hasSelfLoop (buildCoauthorshipNetwork
        [(⟨[.str "Ann Bell", .str "Cy Dole"], "w paper"⟩ : Publication)]) = false
    ∧ ∀ e ∈ (buildCoauthorshipNetwork
        [(⟨[.str "Ann Bell", .str "Cy Dole"], "w paper"⟩ : Publication)]).edges,
        1 ≤ e.2.2.weight :=
  ⟨by decide,
    (c6_no_self_loops_nodup
      [(⟨[.str "Ann Bell", .str "Cy Dole"], "w paper"⟩ : Publication)]).1 (by decide),
    (c6_no_self_loops_nodup
      [(⟨[.str "Ann Bell", .str "Cy Dole"], "w paper"⟩ : Publication)]).2⟩

/-! ## Claims about the metrics computation (C4, C9) -/

/-- C4 counterexample: the claim says a convergence failure of eigenvector
centrality is isolated and all other metrics are still produced for every
node.  On the two-node graph of one concrete publication, with a power
iteration run that fails to converge (as networkx permits after the 1000
iteration cap), the whole computation returns the error: no metrics table
is produced for any node. -/
theorem c4_convergence_failure_counterexample :
    calculateNetworkMetrics ecNonConvergent constEmptyDict constEmptyDict
      constEmptyDict [⟨[.str "A", .str "B"], "t"⟩] [] emptyGraph
      = .error .powerIterationFailedConvergence := rfl

/-- C4 amended: calculate_network_metrics does not isolate an eigenvector
centrality failure.  Whenever the eigenvector call signals an error, the
error propagates and aborts the whole metrics computation; no row of any
metric is returned for any node. -/
theorem c4_convergence_failure_aborts
    (ecCore : Graph → Except NxError (List (String × ℚ)))
    (bcF ccF prF : Graph → List (String × ℚ))
    (pubs : List Publication) (authors : List AuthorRec) (g0 : Graph) (e : NxError)
    (h : nxEigenvectorCentrality ecCore (effectiveGraph pubs g0) = .error e) :
    calculateNetworkMetrics ecCore bcF ccF prF pubs authors g0 = .error e := by
  unfold calculateNetworkMetrics
  rw [h]

/-- Witness for C4 (amended): the concrete failing run above. -/
theorem c4_convergence_failure_aborts_witness :
    nxEigenvectorCentrality ecNonConvergent
        (effectiveGraph [⟨[.str "Alice A", .str "Ben B"], "t2"⟩] emptyGraph)
      = .error .powerIterationFailedConvergence
    ∧ calculateNetworkMetrics ecNonConvergent constEmptyDict constEmptyDict
        constEmptyDict [⟨[.str "Alice A", .str "Ben B"], "t2"⟩] [] emptyGraph
      = .error .powerIterationFailedConvergence :=
  ⟨rfl,
    c4_convergence_failure_aborts ecNonConvergent constEmptyDict constEmptyDict
      constEmptyDict [⟨[.str "Alice A", .str "Ben B"], "t2"⟩] [] emptyGraph
      .powerIterationFailedConvergence rfl⟩

/-- C9 counterexample: the claim says that with no qualifying co-authorship
edges the downstream computations return empty result tables rather than
raising.  With no publications at all the rebuilt graph is empty, and the
metrics computation raises NetworkXPointlessConcept (from the null-graph
check of networkx eigenvector_centrality) instead of returning an empty
table — even with a power iteration that always converges. -/
theorem c9_empty_graph_counterexample :
    calculateNetworkMetrics ecConvergent constEmptyDict constEmptyDict
      constEmptyDict [] [] emptyGraph = .error .pointlessConcept := rfl

/-- C9 amended: on an empty effective graph the metrics computation always
raises NetworkXPointlessConcept (it does not return an empty table), while
create_features really does accept an empty metrics table and returns an
empty feature table without raising. -/
theorem c9_empty_graph_behavior
    (ecCore : Graph → Except NxError (List (String × ℚ)))
    (bcF ccF prF : Graph → List (String × ℚ))
    (pubs : List Publication) (authors : List AuthorRec) (g0 : Graph)
    (h : (effectiveGraph pubs g0).nodes = []) :
    calculateNetworkMetrics ecCore bcF ccF prF pubs authors g0
      = .error .pointlessConcept
    ∧ ∀ A : List StatRow, createFeatures A [] = [] := by
  constructor
  · have he : nxEigenvectorCentrality ecCore (effectiveGraph pubs g0)
        = .error .pointlessConcept := by
      rw [nxEigenvectorCentrality, if_pos]
      rw [List.isEmpty_iff]
      exact h
    unfold calculateNetworkMetrics
    rw [he]
  · intro A
    have hmerge : ∀ l : List StatRow, innerMerge l [] = [] := by
      intro l
      induction l with
      | nil => rfl
      | cons a l ih => simp [innerMerge] at ih ⊢
    rw [createFeatures]
    have hd : dedupBy (fun r : MetRow => r.author_name) [] = [] := rfl
    rw [hd, hmerge]
    rfl

/-! ### Lemmas about dedupBy and the inner merge (C3) -/

lemma mem_of_mem_dedupAux {α : Type} {key : α → String} :
    ∀ {seen : List String} {l : List α} {x : α}, x ∈ dedupAux key seen l → x ∈ l := by
  intro seen l
  induction l generalizing seen with
  | nil => intro x h; simp [dedupAux] at h
  | cons y ys ih =>
    intro x h
    simp only [dedupAux] at h
    by_cases hy : key y ∈ seen
    · rw [if_pos hy] at h
      exact List.mem_cons_of_mem _ (ih h)
    · rw [if_neg hy] at h
      rcases List.mem_cons.1 h with h | h
      · rw [h]; exact List.mem_cons_self _ _
      · exact List.mem_cons_of_mem _ (ih h)

lemma key_mem_dedupAux {α : Type} {key : α → String} :
    ∀ {seen : List String} {l : List α} {n : String},
      n ∈ (dedupAux key seen l).map key ↔ (n ∉ seen ∧ n ∈ l.map key) := by
  intro seen l
  induction l generalizing seen with
  | nil => intro n; simp [dedupAux]
  | cons y ys ih =>
    intro n
    simp only [dedupAux]
    by_cases hy : key y ∈ seen
    · rw [if_pos hy, ih]
      simp only [List.map_cons, List.mem_cons]
      constructor
      · rintro ⟨h1, h2⟩
        exact ⟨h1, Or.inr h2⟩
      · rintro ⟨h1, h2 | h2⟩
        · exact absurd (show n ∈ seen by rw [h2]; exact hy) h1
        · exact ⟨h1, h2⟩
    · rw [if_neg hy]
      simp only [List.map_cons, List.mem_cons]
      constructor
      · rintro (h | h)
        · exact ⟨fun hn => hy (h ▸ hn), Or.inl h⟩
        · obtain ⟨h1, h2⟩ := ih.1 h
          exact ⟨fun hn => h1 (List.mem_cons_of_mem _ hn), Or.inr h2⟩
      · rintro ⟨h1, h2 | h2⟩
        · exact Or.inl h2
        · by_cases hk : n = key y
          · exact Or.inl hk
          · refine Or.inr (ih.2 ⟨?_, h2⟩)
            intro hn
            rcases List.mem_cons.1 hn with h | h
            · exact hk h
            · exact h1 h

lemma nodup_key_dedupAux {α : Type} {key : α → String} :
    ∀ {seen : List String} {l : List α}, ((dedupAux key seen l).map key).Nodup := by
  intro seen l
  induction l generalizing seen with
  | nil => simp [dedupAux]
  | cons y ys ih =>
    simp only [dedupAux]
    by_cases hy : key y ∈ seen
    · rw [if_pos hy]; exact ih
    · rw [if_neg hy]
      simp only [List.map_cons]
      rw [List.nodup_cons]
      refine ⟨?_, ih⟩
      intro hmem
      obtain ⟨h1, _⟩ := key_mem_dedupAux.1 hmem
      exact h1 (List.mem_cons_self _ _)

lemma find?_dedupAux {α : Type} {key : α → String} {n : String} :
    ∀ {seen : List String} {l : List α}, n ∉ seen →
      (dedupAux key seen l).find? (fun x => key x == n) =
        l.find? (fun x => key x == n) := by
  intro seen l
  induction l generalizing seen with
  | nil => intro _; rfl
  | cons y ys ih =>
    intro hn
    simp only [dedupAux]
    by_cases hy : key y ∈ seen
    · rw [if_pos hy]
      have hne : (key y == n) = false := by
        cases hk : key y == n with
        | false => rfl
        | true => exact absurd ((eq_of_beq hk) ▸ hy) hn
      rw [ih hn, List.find?_cons_of_neg _ (by simp [hne])]
    · rw [if_neg hy]
      cases hk : key y == n with
      | true =>
        rw [List.find?_cons_of_pos (p := fun x => key x == n) _ hk,
          List.find?_cons_of_pos (p := fun x => key x == n) _ hk]
      | false =>
        rw [List.find?_cons_of_neg (p := fun x => key x == n) _ (by simp [hk]),
          List.find?_cons_of_neg (p := fun x => key x == n) _ (by simp [hk])]
        refine ih ?_
        intro hmem
        rcases List.mem_cons.1 hmem with h | h
        · simp [h] at hk
        · exact hn h

lemma find?_dedupBy {α : Type} {key : α → String} {n : String} {l : List α} :
    (dedupBy key l).find? (fun x => key x == n) = l.find? (fun x => key x == n) :=
  find?_dedupAux (by simp)

lemma find?_key_self {α : Type} {key : α → String} {l : List α} {a : α}
    (hnd : (l.map key).Nodup) (ha : a ∈ l) :
    l.find? (fun x => key x == key a) = some a := by
  induction l with
  | nil => simp at ha
  | cons y ys ih =>
    rw [List.map_cons, List.nodup_cons] at hnd
    rcases List.mem_cons.1 ha with h | h
    · rw [List.find?_cons_of_pos _ (by simp [h]), h]
    · have hne : (key y == key a) = false := by
        cases hk : key y == key a with
        | false => rfl
        | true =>
          have heq : key y = key a := eq_of_beq hk
          refine absurd ?_ hnd.1
          rw [heq]
          exact List.mem_map_of_mem key h
      rw [List.find?_cons_of_neg _ (by simp [hne])]
      exact ih hnd.2 h

lemma filter_key_of_nodup {B : List MetRow} {n : String}
    (hnd : (B.map (fun b => b.author_name)).Nodup) :
    B.filter (fun b => b.author_name == n) =
      (match B.find? (fun b => b.author_name == n) with
        | some b => [b]
        | none => []) := by
  induction B with
  | nil => rfl
  | cons y ys ih =>
    rw [List.map_cons, List.nodup_cons] at hnd
    cases hk : (y.author_name == n) with
    | true =>
      rw [List.filter_cons_of_pos (p := fun b : MetRow => b.author_name == n) hk,
        List.find?_cons_of_pos (p := fun b : MetRow => b.author_name == n) _ hk]
      have hnil : ys.filter (fun b => b.author_name == n) = [] := by
        rw [List.filter_eq_nil_iff]
        intro b hb hpb
        have h1 : b.author_name = n := eq_of_beq hpb
        have h2 : y.author_name = n := eq_of_beq hk
        refine absurd ?_ hnd.1
        rw [h2, ← h1]
        exact List.mem_map_of_mem _ hb
      rw [hnil]
    | false =>
      rw [List.filter_cons_of_neg (p := fun b : MetRow => b.author_name == n) (by simp [hk]),
        List.find?_cons_of_neg (p := fun b : MetRow => b.author_name == n) _ (by simp [hk])]
      exact ih hnd.2

lemma innerMerge_eq_filterMap {A : List StatRow} {B : List MetRow}
    (hnd : (B.map (fun b => b.author_name)).Nodup) :
    innerMerge A B = A.filterMap (fun a =>
      (B.find? (fun b => b.author_name == a.author_name)).map (mkMerged a)) := by
  induction A with
  | nil => rfl
  | cons a A ih =>
    have hcons : innerMerge (a :: A) B =
        ((B.filter fun b => b.author_name == a.author_name).map (mkMerged a))
          ++ innerMerge A B := by
      simp [innerMerge]
    rw [hcons, filter_key_of_nodup hnd, ih]
    cases hf : B.find? (fun b => b.author_name == a.author_name) with
    | none =>
      rw [List.filterMap_cons_none (by rw [hf]; rfl)]
      simp
    | some b =>
      rw [List.filterMap_cons_some (by rw [hf]; rfl)]
      simp

/-- C3: the author set of create_features equals the intersection of the
author sets of the two inputs; the output has exactly one row per author
identity; and each output row is the first matching stats row joined with
the first matching metrics row, with every missing value filled with 0
(r = fillZero (mkMerged a b), so each field is the source cell with none
mapped to 0). -/
theorem c3_feature_fusion_inner_join (A : List StatRow) (B : List MetRow) :
    (∀ n : String,
      n ∈ (createFeatures A B).map (fun r => r.author_name) ↔
        (n ∈ A.map (fun r => r.author_name) ∧ n ∈ B.map (fun r => r.author_name)))
    ∧ ((createFeatures A B).map (fun r => r.author_name)).Nodup
    ∧ ∀ r ∈ createFeatures A B, ∃ a b,
        A.find? (fun x => x.author_name == r.author_name) = some a
        ∧ B.find? (fun x => x.author_name == r.author_name) = some b
        ∧ r = fillZero (mkMerged a b) := by
  have hndA' : ((dedupBy (fun r : StatRow => r.author_name) A).map
      (fun r => r.author_name)).Nodup := nodup_key_dedupAux
  have hndB' : ((dedupBy (fun r : MetRow => r.author_name) B).map
      (fun r => r.author_name)).Nodup := nodup_key_dedupAux
  refine ⟨?_, ?_, ?_⟩
  · intro n
    constructor
    · intro hn
      have hn' := (key_mem_dedupAux.1 hn).2
      rw [innerMerge_eq_filterMap hndB'] at hn'
      obtain ⟨fr, hfr, hfrn⟩ := List.mem_map.1 hn'
      obtain ⟨m, hm, rfl⟩ := List.mem_map.1 hfr
      obtain ⟨a, haA', hfa⟩ := List.mem_filterMap.1 hm
      obtain ⟨b, hfb, hmb⟩ := Option.map_eq_some'.1 hfa
      have hname : n = a.author_name := by
        rw [← hfrn, ← hmb]
        rfl
      constructor
      · rw [hname]
        exact List.mem_map_of_mem _ (mem_of_mem_dedupAux haA')
      · have hbB' := List.mem_of_find?_eq_some hfb
        have hpb := List.find?_some hfb
        have hbn : b.author_name = a.author_name := eq_of_beq hpb
        rw [hname, ← hbn]
        exact List.mem_map_of_mem _ (mem_of_mem_dedupAux hbB')
    · rintro ⟨hnA, hnB⟩
      have hnA' : n ∈ (dedupBy (fun r : StatRow => r.author_name) A).map
          (fun r => r.author_name) := key_mem_dedupAux.2 ⟨by simp, hnA⟩
      have hnB' : n ∈ (dedupBy (fun r : MetRow => r.author_name) B).map
          (fun r => r.author_name) := key_mem_dedupAux.2 ⟨by simp, hnB⟩
      obtain ⟨a, haA', han⟩ := List.mem_map.1 hnA'
      obtain ⟨b, hbB', hbn⟩ := List.mem_map.1 hnB'
      have hfind : (dedupBy (fun r : MetRow => r.author_name) B).find?
          (fun x => x.author_name == a.author_name) = some b := by
        have := find?_key_self hndB' hbB'
        rw [show a.author_name = b.author_name from by rw [han, hbn]]
        exact this
      refine key_mem_dedupAux.2 ⟨by simp, ?_⟩
      refine List.mem_map.2 ⟨fillZero (mkMerged a b), ?_, ?_⟩
      · refine List.mem_map.2 ⟨mkMerged a b, ?_, rfl⟩
        rw [innerMerge_eq_filterMap hndB']
        refine List.mem_filterMap.2 ⟨a, haA', ?_⟩
        rw [hfind]
        rfl
      · exact han
  · exact nodup_key_dedupAux
  · intro r hr
    have hr' := mem_of_mem_dedupAux hr
    rw [innerMerge_eq_filterMap hndB'] at hr'
    obtain ⟨m, hm, rfl⟩ := List.mem_map.1 hr'
    obtain ⟨a, haA', hfa⟩ := List.mem_filterMap.1 hm
    obtain ⟨b, hfb, rfl⟩ := Option.map_eq_some'.1 hfa
    refine ⟨a, b, ?_, ?_, rfl⟩
    · have h1 : (dedupBy (fun r : StatRow => r.author_name) A).find?
          (fun x => x.author_name == a.author_name) = some a :=
        find?_key_self hndA' haA'
      have h2 : (fillZero (mkMerged a b)).author_name = a.author_name := rfl
      rw [h2, ← find?_dedupBy]
      exact h1
    · have h2 : (fillZero (mkMerged a b)).author_name = a.author_name := rfl
      rw [h2, ← find?_dedupBy]
      exact hfb

/-- Witness for C9 (amended): the concrete empty run. -/
theorem c9_empty_graph_behavior_witness :
    (effectiveGraph [] emptyGraph).nodes = []
    ∧ (calculateNetworkMetrics ecConvergent constEmptyDict constEmptyDict
        constEmptyDict [] [] emptyGraph = .error .pointlessConcept
      ∧ ∀ A : List StatRow, createFeatures A [] = []) :=
  ⟨by decide,
    c9_empty_graph_behavior ecConvergent constEmptyDict constEmptyDict
      constEmptyDict [] [] emptyGraph (by decide)⟩


/-! ### Lemmas for the impact scorer (C2, C10) -/

lemma mem_insertDesc {x y : FRow × ℚ} :
    ∀ {l : List (FRow × ℚ)}, y ∈ insertDesc x l → y = x ∨ y ∈ l := by
  intro l
  induction l with
  | nil => intro h; simpa [insertDesc] using h
  | cons z zs ih =>
    intro h
    rw [insertDesc] at h
    by_cases hz : z.2 < x.2
    · rw [if_pos hz] at h
      rcases List.mem_cons.1 h with h | h
      · exact Or.inl h
      · exact Or.inr h
    · rw [if_neg hz] at h
      rcases List.mem_cons.1 h with h | h
      · exact Or.inr (by rw [h]; exact List.mem_cons_self _ _)
      · rcases ih h with h | h
        · exact Or.inl h
        · exact Or.inr (List.mem_cons_of_mem _ h)

lemma sorted_insertDesc {x : FRow × ℚ} :
    ∀ {l : List (FRow × ℚ)}, List.Sorted (fun a b : FRow × ℚ => b.2 ≤ a.2) l →
      List.Sorted (fun a b : FRow × ℚ => b.2 ≤ a.2) (insertDesc x l) := by
  intro l
  induction l with
  | nil => intro _; simp [insertDesc]
  | cons z zs ih =>
    intro h
    rw [List.sorted_cons] at h
    rw [insertDesc]
    by_cases hz : z.2 < x.2
    · rw [if_pos hz]
      rw [List.sorted_cons]
      refine ⟨?_, List.sorted_cons.2 h⟩
      intro b hb
      rcases List.mem_cons.1 hb with rfl | hb
      · exact le_of_lt hz
      · exact le_trans (h.1 b hb) (le_of_lt hz)
    · rw [if_neg hz]
      rw [List.sorted_cons]
      refine ⟨?_, ih h.2⟩
      intro b hb
      rcases mem_insertDesc hb with rfl | hb
      · exact le_of_not_lt hz
      · exact h.1 b hb

lemma sorted_sortScoresDesc (l : List (FRow × ℚ)) :
    List.Sorted (fun a b : FRow × ℚ => b.2 ≤ a.2) (sortScoresDesc l) := by
  induction l with
  | nil => simp [sortScoresDesc]
  | cons x xs ih =>
    rw [sortScoresDesc, List.foldr_cons]
    exact sorted_insertDesc ih

lemma perm_insertDesc (x : FRow × ℚ) :
    ∀ (l : List (FRow × ℚ)), (insertDesc x l).Perm (x :: l) := by
  intro l
  induction l with
  | nil => rfl
  | cons z zs ih =>
    rw [insertDesc]
    by_cases hz : z.2 < x.2
    · rw [if_pos hz]
    · rw [if_neg hz]
      exact List.Perm.trans (List.Perm.cons z ih) (List.Perm.swap x z zs)

lemma perm_sortScoresDesc (l : List (FRow × ℚ)) : (sortScoresDesc l).Perm l := by
  induction l with
  | nil => rfl
  | cons x xs ih =>
    rw [sortScoresDesc, List.foldr_cons]
    exact (perm_insertDesc x _).trans (List.Perm.cons x ih)

lemma le_foldl_max (l : List ℚ) : ∀ a : ℚ, a ≤ l.foldl max a := by
  induction l with
  | nil => intro a; simp
  | cons x xs ih =>
    intro a
    rw [List.foldl_cons]
    exact le_trans (le_max_left a x) (ih (max a x))

lemma mem_le_foldl_max {x : ℚ} (l : List ℚ) : ∀ (a : ℚ), x ∈ l → x ≤ l.foldl max a := by
  induction l with
  | nil => intro a h; simp at h
  | cons w ws ih =>
    intro a h
    rw [List.foldl_cons]
    rcases List.mem_cons.1 h with rfl | h
    · exact le_trans (le_max_right a x) (le_foldl_max ws (max a x))
    · exact ih (max a w) h

lemma foldl_min_le (l : List ℚ) : ∀ a : ℚ, l.foldl min a ≤ a := by
  induction l with
  | nil => intro a; simp
  | cons x xs ih =>
    intro a
    rw [List.foldl_cons]
    exact le_trans (ih (min a x)) (min_le_left a x)

lemma foldl_min_le_mem {x : ℚ} (l : List ℚ) : ∀ (a : ℚ), x ∈ l → l.foldl min a ≤ x := by
  induction l with
  | nil => intro a h; simp at h
  | cons w ws ih =>
    intro a h
    rw [List.foldl_cons]
    rcases List.mem_cons.1 h with rfl | h
    · exact le_trans (foldl_min_le ws (min a x)) (min_le_right a x)
    · exact ih (min a w) h

lemma listMin_le_mem {x : ℚ} {raw : List ℚ} (h : x ∈ raw) : listMin raw ≤ x := by
  cases raw with
  | nil => simp at h
  | cons r rs =>
    rw [listMin]
    rcases List.mem_cons.1 h with rfl | h
    · exact foldl_min_le rs x
    · exact foldl_min_le_mem rs r h

lemma mem_le_listMax {x : ℚ} {raw : List ℚ} (h : x ∈ raw) : x ≤ listMax raw := by
  cases raw with
  | nil => simp at h
  | cons r rs =>
    rw [listMax]
    rcases List.mem_cons.1 h with rfl | h
    · exact le_foldl_max rs x
    · exact mem_le_foldl_max rs r h

lemma foldl_max_mem (l : List ℚ) : ∀ a : ℚ, l.foldl max a ∈ a :: l := by
  induction l with
  | nil => intro a; simp
  | cons x xs ih =>
    intro a
    rw [List.foldl_cons]
    rcases List.mem_cons.1 (ih (max a x)) with h | h
    · rcases max_choice a x with hm | hm
      · rw [h, hm]; exact List.mem_cons_self _ _
      · rw [h, hm]; exact List.mem_cons_of_mem _ (List.mem_cons_self _ _)
    · exact List.mem_cons_of_mem _ (List.mem_cons_of_mem _ h)

lemma foldl_min_mem (l : List ℚ) : ∀ a : ℚ, l.foldl min a ∈ a :: l := by
  induction l with
  | nil => intro a; simp
  | cons x xs ih =>
    intro a
    rw [List.foldl_cons]
    rcases List.mem_cons.1 (ih (min a x)) with h | h
    · rcases min_choice a x with hm | hm
      · rw [h, hm]; exact List.mem_cons_self _ _
      · rw [h, hm]; exact List.mem_cons_of_mem _ (List.mem_cons_self _ _)
    · exact List.mem_cons_of_mem _ (List.mem_cons_of_mem _ h)

lemma minMaxRescale_bounds {raw : List ℚ} : ∀ s ∈ minMaxRescale raw, 0 ≤ s ∧ s ≤ 100 := by
  intro s hs
  unfold minMaxRescale at hs
  by_cases h : listMin raw < listMax raw
  · rw [if_pos h] at hs
    obtain ⟨x, hx, rfl⟩ := List.mem_map.1 hs
    have h1 : listMin raw ≤ x := listMin_le_mem hx
    have h2 : x ≤ listMax raw := mem_le_listMax hx
    have hpos : 0 < listMax raw - listMin raw := by linarith
    constructor
    · exact mul_nonneg (div_nonneg (by linarith) hpos.le) (by norm_num)
    · have hle1 : (x - listMin raw) / (listMax raw - listMin raw) ≤ 1 :=
        (div_le_one hpos).2 (by linarith)
      calc (x - listMin raw) / (listMax raw - listMin raw) * 100
          ≤ 1 * 100 := mul_le_mul_of_nonneg_right hle1 (by norm_num)
        _ = 100 := by norm_num
  · rw [if_neg h] at hs
    obtain ⟨x, hx, rfl⟩ := List.mem_map.1 hs
    norm_num

lemma minMaxRescale_all_eq {raw : List ℚ}
    (h : ∀ x ∈ raw, ∀ y ∈ raw, x = y) : ∀ s ∈ minMaxRescale raw, s = 0 := by
  intro s hs
  unfold minMaxRescale at hs
  by_cases hlt : listMin raw < listMax raw
  · exfalso
    cases raw with
    | nil => simp [listMin, listMax] at hlt
    | cons r rs =>
      have h1 : listMax (r :: rs) ∈ r :: rs := by
        rw [listMax]; exact foldl_max_mem rs r
      have h2 : listMin (r :: rs) ∈ r :: rs := by
        rw [listMin]; exact foldl_min_mem rs r
      have heq := h _ h2 _ h1
      rw [heq] at hlt
      exact lt_irrefl _ hlt
  · rw [if_neg hlt] at hs
    obtain ⟨x, hx, rfl⟩ := List.mem_map.1 hs
    rfl


lemma getD_of_drop :
    ∀ (j : ℕ) (v : List ℚ) (x : ℚ) (xs : List ℚ),
      v.drop j = x :: xs → v.getD j 0 = x := by
  intro j
  induction j with
  | zero =>
    intro v x xs h
    rw [List.drop_zero] at h
    rw [h]
    rfl
  | succ j ih =>
    intro v x xs h
    cases v with
    | nil => simp at h
    | cons y ys =>
      rw [List.drop_succ_cons] at h
      rw [List.getD_cons_succ]
      exact ih ys x xs h

lemma drop_succ_of_drop : ∀ (j : ℕ) (v : List ℚ) (x : ℚ) (xs : List ℚ),
    v.drop j = x :: xs → v.drop (j + 1) = xs := by
  intro j
  induction j with
  | zero =>
    intro v x xs h
    rw [List.drop_zero] at h
    rw [h, List.drop_succ_cons, List.drop_zero]
  | succ j ih =>
    intro v x xs h
    cases v with
    | nil => simp at h
    | cons y ys =>
      rw [List.drop_succ_cons] at h
      rw [List.drop_succ_cons]
      exact ih ys x xs h

lemma pyMean_const {n : ℕ} {c : ℚ} (h : n ≠ 0) : pyMean (List.replicate n c) = c := by
  have hn : (n : ℚ) ≠ 0 := Nat.cast_ne_zero.2 h
  rw [pyMean, List.sum_replicate, List.length_replicate, nsmul_eq_mul]
  field_simp

lemma colVals_const {X : List (List ℚ)} {v : List ℚ} (h : ∀ r ∈ X, r = v) (j : ℕ) :
    colVals X j = List.replicate X.length (v.getD j 0) := by
  rw [List.eq_replicate_iff]
  constructor
  · rw [colVals, List.length_map]
  · intro b hb
    rw [colVals] at hb
    obtain ⟨r, hr, rfl⟩ := List.mem_map.1 hb
    rw [h r hr]

lemma standardizeFrom_const {sqrtFn : ℚ → ℚ} {X : List (List ℚ)} {v : List ℚ}
    (hX : ∀ r ∈ X, r = v) (hne : X ≠ []) :
    ∀ (j : ℕ) (t : List ℚ), v.drop j = t →
      standardizeFrom sqrtFn X j t = List.replicate t.length 0 := by
  intro j t
  induction t generalizing j with
  | nil => intro _; rfl
  | cons x xs ih =>
    intro hdrop
    have hlen : X.length ≠ 0 := by
      intro h0
      exact hne (List.length_eq_zero.1 h0)
    have hx : v.getD j 0 = x := getD_of_drop j v x xs hdrop
    have hmean : pyMean (colVals X j) = x := by
      rw [colVals_const hX j, pyMean_const hlen, hx]
    rw [List.length_cons, List.replicate_succ]
    show ((x - pyMean (colVals X j)) / colScale sqrtFn X j)
        :: standardizeFrom sqrtFn X (j + 1) xs = 0 :: List.replicate xs.length 0
    rw [hmean, sub_self, zero_div, ih (j + 1) (drop_succ_of_drop j v x xs hdrop)]

lemma rawScore_replicate_zero (cols : List String) (m : ℕ) :
    rawScore cols (List.replicate m 0) = 0 := by
  rw [rawScore]
  apply List.sum_eq_zero
  intro q hq
  obtain ⟨p, hp, rfl⟩ := List.mem_map.1 hq
  have h2 : p.2 = 0 := List.eq_of_mem_replicate (List.of_mem_zip hp).2
  rw [h2, mul_zero]

lemma rawScores_const_zero {sqrtFn : ℚ → ℚ} {cols : List String} {rows : List FRow}
    {v : List ℚ} (h : ∀ r ∈ rows, r.vals = v) :
    ∀ s ∈ rawScores sqrtFn cols rows, s = 0 := by
  intro s hs
  rw [rawScores, standardize] at hs
  obtain ⟨xr, hxr, rfl⟩ := List.mem_map.1 hs
  obtain ⟨r, hr, rfl⟩ := List.mem_map.1 hxr
  obtain ⟨fr, hfr, rfl⟩ := List.mem_map.1 hr
  have hXconst : ∀ u ∈ rows.map (fun r : FRow => r.vals), u = v := by
    intro u hu
    obtain ⟨g, hg, rfl⟩ := List.mem_map.1 hu
    exact h g hg
  have hne : rows.map (fun r : FRow => r.vals) ≠ [] :=
    List.ne_nil_of_mem (List.mem_map_of_mem _ hfr)
  have hfrv : fr.vals = v := h fr hfr
  rw [hfrv, standardizeFrom_const hXconst hne 0 v (by rw [List.drop_zero])]
  exact rawScore_replicate_zero cols v.length

/-- C10: for every input, the table returned by calculate_impact_score is
the score-annotated feature table sorted by impact_score in non-increasing
order (a permutation of the zipped rows, pairwise sorted descending). -/
theorem c10_impact_table_sorted_desc (sqrtFn : ℚ → ℚ) (cols : List String)
    (rows : List FRow) :
    List.Sorted (fun a b : FRow × ℚ => b.2 ≤ a.2)
      (calculateImpactScore sqrtFn cols rows)
    ∧ (calculateImpactScore sqrtFn cols rows).Perm
        (rows.zip (minMaxRescale (rawScores sqrtFn cols rows))) :=
  ⟨sorted_sortScoresDesc _, perm_sortScoresDesc _⟩

/-- Witness for C10: a concrete two-author population. -/
theorem c10_impact_table_sorted_desc_witness :
    List.Sorted (fun a b : FRow × ℚ => b.2 ≤ a.2)
      (calculateImpactScore (fun q => q) ["total_citations"]
        ([⟨"u", [1]⟩, ⟨"w", [3]⟩] : List FRow))
    ∧ (calculateImpactScore (fun q => q) ["total_citations"]
        ([⟨"u", [1]⟩, ⟨"w", [3]⟩] : List FRow)).Perm
        (([⟨"u", [1]⟩, ⟨"w", [3]⟩] : List FRow).zip
          (minMaxRescale (rawScores (fun q => q) ["total_citations"]
            ([⟨"u", [1]⟩, ⟨"w", [3]⟩] : List FRow)))) :=
  c10_impact_table_sorted_desc (fun q => q) ["total_citations"]
    ([⟨"u", [1]⟩, ⟨"w", [3]⟩] : List FRow)

/-- C2: every impact score lies in [0, 100]; when all raw weighted scores
are equal the min-max branch is skipped and every author receives exactly
0 (no division by zero); in particular, when all authors have identical
feature vectors every standardized entry is 0, all raw scores coincide,
and every impact score is 0. -/
theorem c2_impact_score_range_degenerate (sqrtFn : ℚ → ℚ) (cols : List String)
    (rows : List FRow) :
    (∀ q ∈ calculateImpactScore sqrtFn cols rows, 0 ≤ q.2 ∧ q.2 ≤ 100)
    ∧ ((∀ x ∈ rawScores sqrtFn cols rows, ∀ y ∈ rawScores sqrtFn cols rows, x = y) →
        ∀ q ∈ calculateImpactScore sqrtFn cols rows, q.2 = 0)
    ∧ (∀ v : List ℚ, (∀ r ∈ rows, r.vals = v) →
        ∀ q ∈ calculateImpactScore sqrtFn cols rows, q.2 = 0) := by
  have hmem : ∀ q ∈ calculateImpactScore sqrtFn cols rows,
      q.2 ∈ minMaxRescale (rawScores sqrtFn cols rows) := by
    intro q hq
    rw [calculateImpactScore] at hq
    have hq' : q ∈ rows.zip (minMaxRescale (rawScores sqrtFn cols rows)) :=
      (perm_sortScoresDesc _).mem_iff.1 hq
    exact (List.of_mem_zip hq').2
  refine ⟨?_, ?_, ?_⟩
  · intro q hq
    exact minMaxRescale_bounds _ (hmem q hq)
  · intro hall q hq
    exact minMaxRescale_all_eq hall _ (hmem q hq)
  · intro v hv q hq
    have hall : ∀ x ∈ rawScores sqrtFn cols rows,
        ∀ y ∈ rawScores sqrtFn cols rows, x = y := by
      intro x hx y hy
      rw [rawScores_const_zero hv x hx, rawScores_const_zero hv y hy]
    exact minMaxRescale_all_eq hall _ (hmem q hq)

/-- Witness for C2: two authors with identical feature vectors both score
exactly 0, and every score is inside [0, 100]. -/
theorem c2_impact_score_range_degenerate_witness :
    (∀ r ∈ ([⟨"u", [5]⟩, ⟨"w", [5]⟩] : List FRow), r.vals = [5])
    ∧ (∀ q ∈ calculateImpactScore (fun q => q) ["total_citations"]
        ([⟨"u", [5]⟩, ⟨"w", [5]⟩] : List FRow), 0 ≤ q.2 ∧ q.2 ≤ 100)
    ∧ (∀ q ∈ calculateImpactScore (fun q => q) ["total_citations"]
        ([⟨"u", [5]⟩, ⟨"w", [5]⟩] : List FRow), q.2 = 0) :=
  ⟨by decide,
    (c2_impact_score_range_degenerate (fun q => q) ["total_citations"]
      ([⟨"u", [5]⟩, ⟨"w", [5]⟩] : List FRow)).1,
    (c2_impact_score_range_degenerate (fun q => q) ["total_citations"]
      ([⟨"u", [5]⟩, ⟨"w", [5]⟩] : List FRow)).2.2 [5] (by decide)⟩


/-! ### Lemmas for the prediction ensemble (C7, C8) -/

lemma mem_runModelsStep {lgbmAvailable : Bool} {fitPredict : String → Option (List ℚ)}
    {sqrtFn : ℚ → ℚ} {yTest : List ℚ} {acc : List (String × ModelMetrics)}
    {name : String} {p : String × ModelMetrics}
    (h : p ∈ runModelsStep lgbmAvailable fitPredict sqrtFn yTest acc name) :
    p ∈ acc ∨ (p.1 = name ∧ ∃ yPred, fitPredict name = some yPred ∧
      p.2 = ⟨r2Score yTest yPred, sqrtFn (meanSquaredError yTest yPred)⟩) := by
  unfold runModelsStep at h
  by_cases hk : name ∈ knownModels
  · rw [if_pos hk] at h
    by_cases hl : name = "lgbm" ∧ lgbmAvailable = false
    · rw [if_pos hl] at h
      exact Or.inl h
    · rw [if_neg hl] at h
      cases hf : fitPredict name with
      | none => rw [hf] at h; exact Or.inl h
      | some yPred =>
        rw [hf] at h
        rcases List.mem_append.1 h with h | h
        · exact Or.inl h
        · have hp := List.mem_singleton.1 h
          refine Or.inr ⟨by rw [hp], yPred, rfl, by rw [hp]⟩
  · rw [if_neg hk] at h
    exact Or.inl h

lemma mem_runModels_foldl {lgbmAvailable : Bool} {fitPredict : String → Option (List ℚ)}
    {sqrtFn : ℚ → ℚ} {yTest : List ℚ} :
    ∀ (models : List String) (acc : List (String × ModelMetrics))
      (p : String × ModelMetrics),
      p ∈ models.foldl (runModelsStep lgbmAvailable fitPredict sqrtFn yTest) acc →
      p ∈ acc ∨ (p.1 ∈ models ∧ ∃ yPred, fitPredict p.1 = some yPred ∧
        p.2 = ⟨r2Score yTest yPred, sqrtFn (meanSquaredError yTest yPred)⟩) := by
  intro models
  induction models with
  | nil => intro acc p h; exact Or.inl h
  | cons name models ih =>
    intro acc p h
    rw [List.foldl_cons] at h
    rcases ih _ p h with h' | ⟨hm, hy⟩
    · rcases mem_runModelsStep h' with h'' | ⟨hn, yPred, hf, hp⟩
      · exact Or.inl h''
      · exact Or.inr ⟨by rw [hn]; exact List.mem_cons_self _ _, yPred, by rw [hn]; exact hf, hp⟩
    · exact Or.inr ⟨List.mem_cons_of_mem _ hm, hy⟩

lemma mem_runModels {lgbmAvailable : Bool} {fitPredict : String → Option (List ℚ)}
    {sqrtFn : ℚ → ℚ} {yTest : List ℚ} {models : List String}
    {p : String × ModelMetrics}
    (h : p ∈ runModels lgbmAvailable fitPredict sqrtFn yTest models) :
    p.1 ∈ models ∧ ∃ yPred, fitPredict p.1 = some yPred ∧
      p.2 = ⟨r2Score yTest yPred, sqrtFn (meanSquaredError yTest yPred)⟩ := by
  rcases mem_runModels_foldl models [] p h with h' | h'
  · simp at h'
  · exact h'

lemma meanSquaredError_nonneg (yTrue yPred : List ℚ) :
    0 ≤ meanSquaredError yTrue yPred := by
  rw [meanSquaredError]
  refine div_nonneg (List.sum_nonneg ?_) (Nat.cast_nonneg _)
  intro x hx
  obtain ⟨p, _, rfl⟩ := List.mem_map.1 hx
  positivity

lemma foldl_pyMax_spec {α : Type} (key : α → ℚ) :
    ∀ (xs : List α) (acc : α),
      (xs.foldl (fun b y => if key b < key y then y else b) acc = acc
        ∧ ∀ y ∈ xs, key y ≤ key acc)
      ∨ ∃ pre z post, xs = pre ++ z :: post
          ∧ xs.foldl (fun b y => if key b < key y then y else b) acc = z
          ∧ key acc < key z ∧ (∀ y ∈ pre, key y < key z)
          ∧ (∀ y ∈ post, key y ≤ key z) := by
  intro xs
  induction xs with
  | nil =>
    intro acc
    exact Or.inl ⟨rfl, by simp⟩
  | cons w ws ih =>
    intro acc
    rw [List.foldl_cons]
    by_cases hw : key acc < key w
    · rw [if_pos hw]
      rcases ih w with ⟨heq, hle⟩ | ⟨pre, z, post, hsplit, heq, hlt, hpre, hpost⟩
      · exact Or.inr ⟨[], w, ws, by simp, heq, hw, by simp, hle⟩
      · refine Or.inr ⟨w :: pre, z, post, by simp [hsplit], heq,
          lt_trans hw hlt, ?_, hpost⟩
        intro y hy
        rcases List.mem_cons.1 hy with rfl | hy
        · exact hlt
        · exact hpre y hy
    · rw [if_neg hw]
      push_neg at hw
      rcases ih acc with ⟨heq, hle⟩ | ⟨pre, z, post, hsplit, heq, hlt, hpre, hpost⟩
      · refine Or.inl ⟨heq, ?_⟩
        intro y hy
        rcases List.mem_cons.1 hy with rfl | hy
        · exact hw
        · exact hle y hy
      · refine Or.inr ⟨w :: pre, z, post, by simp [hsplit], heq, hlt, ?_, hpost⟩
        intro y hy
        rcases List.mem_cons.1 hy with rfl | hy
        · exact lt_of_le_of_lt hw hlt
        · exact hpre y hy

/-- Python max with a key returns the first element attaining the maximal
key: everything before it is strictly smaller, everything after it is at
most it. -/
lemma pyMaxBy_spec {α : Type} (key : α → ℚ) {l : List α} (h : l ≠ []) :
    ∃ pre z post, pyMaxBy key l = some z ∧ l = pre ++ z :: post
      ∧ (∀ y ∈ pre, key y < key z) ∧ (∀ y ∈ post, key y ≤ key z) := by
  cases l with
  | nil => exact absurd rfl h
  | cons x xs =>
    rw [pyMaxBy]
    rcases foldl_pyMax_spec key xs x with ⟨heq, hle⟩ |
      ⟨pre, z, post, hsplit, heq, hlt, hpre, hpost⟩
    · exact ⟨[], x, xs, by rw [heq], rfl, by simp, hle⟩
    · refine ⟨x :: pre, z, post, by rw [heq], by simp [hsplit], ?_, hpost⟩
      intro y hy
      rcases List.mem_cons.1 hy with rfl | hy
      · exact hlt
      · exact hpre y hy

/-- C7: predict_citations called without an explicit model list resolves
the default to ['rf', 'lgbm', 'dt'] — support-vector regression is never
attempted, contradicting the claim (and the function's own docstring,
which promises ['rf', 'lgbm', 'dt', 'svm']). -/
theorem c7_default_models_omit_svm (lgbmAvailable : Bool)
    (fitPredict : String → Option (List ℚ)) (sqrtFn : ℚ → ℚ) (yTest : List ℚ) :
    defaultModels = ["rf", "lgbm", "dt"]
    ∧ "svm" ∉ defaultModels
    ∧ ∀ p ∈ (predictCitations lgbmAvailable fitPredict sqrtFn yTest none).results,
        p.1 ≠ "svm" := by
  refine ⟨rfl, by decide, ?_⟩
  intro p hp
  have h := (mem_runModels hp).1
  intro hsvm
  rw [hsvm] at h
  simp [Option.getD, defaultModels] at h

/-- Witness for C7: a concrete defaulted call. -/
theorem c7_default_models_omit_svm_witness :
    defaultModels = ["rf", "lgbm", "dt"]
    ∧ "svm" ∉ defaultModels
    ∧ ∀ p ∈ (predictCitations false (fun _ => none) (fun q => q) [] none).results,
        p.1 ≠ "svm" :=
  c7_default_models_omit_svm false (fun _ => none) (fun q => q) []

/-- C8: whenever at least one model trained, best_model is the name of the
first results entry attaining the maximal r2 (ties go to the earlier entry
in iteration order over the model list), and every reported rmse is
nonnegative (rmse = sqrt(mse) with mse a mean of squares), for any
square-root function that is nonnegative on nonnegative inputs. -/
theorem c8_best_model_argmax (lgbmAvailable : Bool)
    (fitPredict : String → Option (List ℚ)) (sqrtFn : ℚ → ℚ) (yTest : List ℚ)
    (modelsArg : Option (List String))
    (hs : ∀ q : ℚ, 0 ≤ q → 0 ≤ sqrtFn q) :
    (∀ p ∈ (predictCitations lgbmAvailable fitPredict sqrtFn yTest modelsArg).results,
        0 ≤ p.2.rmse)
    ∧ ((predictCitations lgbmAvailable fitPredict sqrtFn yTest modelsArg).results ≠ [] →
        ∃ pre m post,
          (predictCitations lgbmAvailable fitPredict sqrtFn yTest modelsArg).best_model
            = some m.1
          ∧ (predictCitations lgbmAvailable fitPredict sqrtFn yTest modelsArg).results
            = pre ++ m :: post
          ∧ (∀ y ∈ pre, y.2.r2 < m.2.r2)
          ∧ (∀ y ∈ post, y.2.r2 ≤ m.2.r2)) := by
  constructor
  · intro p hp
    obtain ⟨_, yPred, _, hp2⟩ := mem_runModels hp
    rw [hp2]
    exact hs _ (meanSquaredError_nonneg yTest yPred)
  · intro hne
    obtain ⟨pre, z, post, hmax, hsplit, hpre, hpost⟩ :=
      pyMaxBy_spec (fun p : String × ModelMetrics => p.2.r2) hne
    refine ⟨pre, z, post, ?_, hsplit, hpre, hpost⟩
    have hmax' : pyMaxBy (fun p : String × ModelMetrics => p.2.r2)
        (runModels lgbmAvailable fitPredict sqrtFn yTest
          (modelsArg.getD defaultModels)) = some z := hmax
    show (pyMaxBy (fun p : String × ModelMetrics => p.2.r2)
      (runModels lgbmAvailable fitPredict sqrtFn yTest
        (modelsArg.getD defaultModels))).map (fun p => p.1) = some z.1
    rw [hmax']
    rfl

/-- Witness for C8: one successful model (rf), lgbm unavailable, dt failing. -/
theorem c8_best_model_argmax_witness :
    (∀ q : ℚ, 0 ≤ q → 0 ≤ (fun q : ℚ => q) q)
    ∧ ((∀ p ∈ (predictCitations false
          (fun n => if n = "rf" then some [1] else none) (fun q : ℚ => q) [1]
          none).results, 0 ≤ p.2.rmse)
      ∧ ((predictCitations false (fun n => if n = "rf" then some [1] else none)
            (fun q : ℚ => q) [1] none).results ≠ [] →
          ∃ pre m post,
            (predictCitations false (fun n => if n = "rf" then some [1] else none)
              (fun q : ℚ => q) [1] none).best_model = some m.1
            ∧ (predictCitations false (fun n => if n = "rf" then some [1] else none)
                (fun q : ℚ => q) [1] none).results = pre ++ m :: post
            ∧ (∀ y ∈ pre, y.2.r2 < m.2.r2)
            ∧ (∀ y ∈ post, y.2.r2 ≤ m.2.r2))) :=
  ⟨fun _ h => h,
    c8_best_model_argmax false (fun n => if n = "rf" then some [1] else none)
      (fun q : ℚ => q) [1] none (fun _ h => h)⟩


/-- Witness for C3: a one-row stats table and a one-row metrics table
sharing the author name. -/
theorem c3_feature_fusion_inner_join_witness :
    (∀ n : String,
      n ∈ (createFeatures ([⟨"ann", some 2, none, none, some 1⟩] : List StatRow)
          ([⟨"ann", some 3, none, none, none, none, some 1⟩] : List MetRow)).map
            (fun r => r.author_name) ↔
        (n ∈ ([⟨"ann", some 2, none, none, some 1⟩] : List StatRow).map
            (fun r => r.author_name)
          ∧ n ∈ ([⟨"ann", some 3, none, none, none, none, some 1⟩] : List MetRow).map
            (fun r => r.author_name)))
    ∧ ((createFeatures ([⟨"ann", some 2, none, none, some 1⟩] : List StatRow)
        ([⟨"ann", some 3, none, none, none, none, some 1⟩] : List MetRow)).map
          (fun r => r.author_name)).Nodup
    ∧ ∀ r ∈ createFeatures ([⟨"ann", some 2, none, none, some 1⟩] : List StatRow)
        ([⟨"ann", some 3, none, none, none, none, some 1⟩] : List MetRow), ∃ a b,
        ([⟨"ann", some 2, none, none, some 1⟩] : List StatRow).find?
          (fun x => x.author_name == r.author_name) = some a
        ∧ ([⟨"ann", some 3, none, none, none, none, some 1⟩] : List MetRow).find?
          (fun x => x.author_name == r.author_name) = some b
        ∧ r = fillZero (mkMerged a b) :=
  c3_feature_fusion_inner_join ([⟨"ann", some 2, none, none, some 1⟩] : List StatRow)
    ([⟨"ann", some 3, none, none, none, none, some 1⟩] : List MetRow)

end AcademicAnalysis
